import Mathlib

/-!
Shallow embedding of `successive_averages.py` (Method of Successive Averages
traffic assignment) and verification of the frozen claims about it.

Modelling conventions:
* Python floats are modelled as exact rationals (`ℚ`); the spec states all
  formulas in real arithmetic.
* Python's in-place mutation of `Node` / `Edge` objects is modelled by
  explicit state passing over `List Node` / `List Edge`; object references
  into the edge list (routes store shared `Edge` objects) are modelled as
  indices (`Nat`) into that list.  Node names are assumed unique (the spec
  requires this), so a predecessor reference is stored as the node's name.
* An uncaught Python exception (IndexError, KeyError, AttributeError on
  `None`, ZeroDivisionError, a failed destructuring of `str.split`) is
  modelled as `Option.none`; fallible functions return `Option`.
* Python dictionaries iterate in insertion order; they are modelled as
  association lists (`List (key × value)`) with first-match lookup and
  update-in-place-or-append insertion.
* `round(x * 100) / 100` is modelled with floor-based rounding to two
  decimals; Python's banker's rounding differs only on exact half-cent
  ties, which no claim depends on.
* File output (`output=True` report writing) and the textual network-file
  tokenizer are I/O wrappers outside the core (spec §1); the `od`-line
  handler of `generateGraph`, which the claims do cite, is embedded with
  the already-tokenized fields as arguments.
-/

namespace MSA

/-- Python `class Node`: name, tentative distance (sentinel 1000000), predecessor
reference (modelled by name), and the settled flag used by one Dijkstra run. -/
structure Node where
  name : String
  dist : ℚ
  prev : Option String
  flag : Bool
deriving Repr, DecidableEq

/-- Python `Node.__init__`: fresh node with distance 1000000, no predecessor, flag 0. -/
def mkNode (nm : String) : Node := ⟨nm, 1000000, none, false⟩

/-- Python `class Edge`: start/end node names, the bound cost function (the parsed
expression `function[2].evaluate` with its constants already substituted, so a
function of the flow), and the mutable flow / cost / auxiliary-flow state. -/
structure Edge where
  start : String
  «end» : String
  fn : ℚ → ℚ
  flow : ℚ
  cost : ℚ
  aux_flow : ℚ

/-- Python `self.name = "%s-%s" % (start, end)`. -/
def Edge.name (e : Edge) : String := e.start ++ "-" ++ e.«end»

/-- Python `Edge.update_cost`: re-evaluate the cost function at the current flow. -/
def Edge.update_cost (e : Edge) : Edge := { e with cost := e.fn e.flow }

/-- Python `Edge.__init__` with `generateGraph`'s default `flow=0.0`: flow 0, then
`update_cost` caches the cost at flow 0. -/
def mkEdge (s t : String) (f : ℚ → ℚ) : Edge :=
  Edge.update_cost { start := s, «end» := t, fn := f, flow := 0, cost := 0, aux_flow := 0 }

/-- A route as stored in the route-flow table: the list of positions (in the
edge list) of the `Edge` objects the Python code keeps references to. -/
abbrev Route := List Nat

/-- A Python dict in insertion order: association list, first-match lookup. -/
def dlookup {α : Type} (m : List (String × α)) (k : String) : Option α :=
  (m.find? (fun p => p.1 == k)).map Prod.snd

/-- Python dict assignment `m[k] = v`: overwrite the existing entry in place,
otherwise append (keys keep their insertion order). -/
def dinsert {α : Type} : List (String × α) → String → α → List (String × α)
  | [], k, v => [(k, v)]
  | (k', v') :: tl, k, v =>
    if k' == k then (k, v) :: tl else (k', v') :: dinsert tl k v

/-- Python `od_routes_flow`: per OD-pair key, routes keyed by their display string,
each with its edge sequence and current flow. -/
abbrev RouteTable := List (String × List (String × (Route × ℚ)))

/-- Python `min_routes`: per OD-pair key, the iteration's best route string and route. -/
abbrev MinRoutes := List (String × (String × Route))

/-- Python `OD_matrix`: OD-pair key to demand. -/
abbrev ODMatrix := List (String × ℚ)

/-- Python `resetGraph`: distance back to the 1000000 sentinel, no predecessor,
flag cleared, for every node. -/
def resetGraph (N : List Node) : List Node :=
  N.map fun nd => { nd with dist := 1000000, prev := none, flag := false }

/-- Python `pickSmallestNode`: the first unflagged node, then a full scan replacing it
whenever a strictly smaller unflagged distance is found; hence the position of
the first unflagged node of minimum distance (as an index), or `none`. -/
def pickSmallestNode (N : List Node) : Option Nat :=
  match N.findIdx? (fun nd => !nd.flag) with
  | none => none
  | some i0 =>
    match N.get? i0 with
    | none => none
    | some nd0 =>
      some (N.enum.foldl
        (fun acc p => if (!p.2.flag) && decide (p.2.dist < acc.2) then (p.1, p.2.dist) else acc)
        (i0, nd0.dist)).1

/-- Python `pickEdgesList`: the edges whose start is the given node's name. -/
def pickEdgesList (uname : String) (E : List Edge) : List Edge :=
  E.filter (fun e => e.start == uname)

/-- One step of the relaxation loop body of `dijkstra`.  The accumulator keeps
the node list and the loop variable `n`, which Python leaves bound to the
previous edge's end node when the current edge's end matches no node; if `n`
is still `None` at the comparison, `n.dist` raises (`none`).  The relaxation
reads the settled node's current distance and strictly improves
`n.dist`/`n.prev`. -/
def relaxStep (ignored : List String) (ui : Nat) (acc : List Node × Option Nat) (e : Edge) :
    Option (List Node × Option Nat) :=
  if ignored.contains e.name then some acc
  else
    let nIdx :=
      match acc.1.findIdx? (fun nd => nd.name == e.«end») with
      | some j => some j
      | none => acc.2
    match nIdx with
    | none => none
    | some j =>
      match acc.1.get? j, acc.1.get? ui with
      | some nj, some u =>
        if u.dist + e.cost < nj.dist then
          some (acc.1.set j { nj with dist := u.dist + e.cost, prev := some u.name }, some j)
        else
          some (acc.1, some j)
      | _, _ => none

/-- The whole relaxation pass over the settled node's outgoing edge list. -/
def relaxAll (N : List Node) (ui : Nat) (E : List Edge) (ignored : List String) :
    Option (List Node) :=
  let uname := match N.get? ui with | some u => u.name | none => ""
  ((pickEdgesList uname E).foldlM (relaxStep ignored ui) (N, (none : Option Nat))).map Prod.fst

/-- The selection loop of `dijkstra`: pick the smallest unflagged node, settle
it, relax its outgoing edges, and stop when the next pick equals `dest`
(object identity; `None == None` when the destination was never found) or no
unflagged node remains.  Each pass settles one node, so fuel `|N| + 1` is
never exhausted. -/
def dijkstraLoop (E : List Edge) (ignored : List String) (dest : Option Nat) :
    Nat → List Node → Option (List Node)
  | 0, N => some N
  | fuel+1, N =>
    match pickSmallestNode N with
    | none => some N
    | some ui =>
      match N.get? ui with
      | none => some N
      | some u =>
        match relaxAll (N.set ui { u with flag := true }) ui E ignored with
        | none => none
        | some N2 =>
          if pickSmallestNode N2 = dest then some N2
          else dijkstraLoop E ignored dest fuel N2

/-- The destination lookup of `dijkstra`: the loop `for node in N: if
node.name == destination: dest = node` keeps the last match. -/
def lastIdxOf (N : List Node) (nm : String) : Option Nat :=
  N.enum.foldl (fun acc p => if p.2.name == nm then some p.1 else acc) none

/-- The predecessor-chain walk `while u.prev != None: S.insert(0,u); u =
u.prev` followed by the final `S.insert(0,u)`, returning the node names in
path order.  A predecessor name that matches no node, or a chain longer than
the fuel (a cycle, on which Python loops forever), yields `none`. -/
def walkPrev (N : List Node) : Nat → Node → List String → Option (List String)
  | 0, _, _ => none
  | fuel+1, u, acc =>
    match u.prev with
    | none => some (u.name :: acc)
    | some pname =>
      match N.find? (fun nd => nd.name == pname) with
      | none => none
      | some p => walkPrev N fuel p (u.name :: acc)

/-- Python `dijkstra`: reset the scratch state, zero the origin's distance, find the
destination node (last name match), run the selection loop, then reconstruct
the path from the destination's predecessor chain.  When the destination name
matches no node, Python's `u = dest = None` makes `u.prev` raise
AttributeError: `none`. -/
def dijkstra (N : List Node) (E : List Edge) (origin destination : String)
    (ignoredEdges : List String) : Option (List String) :=
  let N1 := (resetGraph N).map (fun nd => if nd.name == origin then { nd with dist := 0 } else nd)
  let dest := lastIdxOf N1 destination
  match dijkstraLoop E ignoredEdges dest (N1.length + 1) N1 with
  | none => none
  | some Nf =>
    match dest with
    | none => none
    | some di =>
      match Nf.get? di with
      | none => none
      | some dn => walkPrev Nf (Nf.length + 1) dn []

/-- Python `getPathAsEdges`: for each consecutive node pair of the path, the first
edge of `E` with that start and end (`[...][0]` raises IndexError when there
is none: `none`).  Edges are recorded as their positions in `E` (Python keeps
references to the shared `Edge` objects). -/
def getPathAsEdges (P : List String) (E : List Edge) : Option (List Nat) :=
  (P.foldlM
    (fun (acc : List Nat × Option String) nodeName =>
      match acc.2 with
      | none => some (acc.1, some nodeName)
      | some prev =>
        match E.findIdx? (fun (e : Edge) => e.start == prev && e.«end» == nodeName) with
        | none => none
        | some j => some (acc.1 ++ [j], some nodeName))
    (([] : List Nat), (none : Option String))).map Prod.fst

/-- The display name of the edge stored at position `i` of the edge list. -/
def edgeNameD (E : List Edge) (i : Nat) : String :=
  ((E.get? i).map Edge.name).getD ""

/-- Python `pathToStr` on a list of edges: names joined with `" - "`.  On an empty
route the Python `type(path[0])` check raises IndexError: `none`. -/
def pathToStr (path : List Nat) (E : List Edge) : Option String :=
  match path with
  | [] => none
  | _ =>
    some (path.foldl
      (fun s i => if s == "" then edgeNameD E i else s ++ " - " ++ edgeNameD E i) "")

/-- Python `str.split` on the single character `'|'`, on the character list of the
key (Python splits the OD key with `od.split("|")`). -/
def splitOnPipe : List Char → List (List Char)
  | [] => [[]]
  | c :: cs =>
    let r := splitOnPipe cs
    if c = '|' then [] :: r
    else
      match r with
      | [] => [[c]]
      | h :: t => (c :: h) :: t

/-- The destructuring `[o, d] = od.split("|")`: succeeds exactly when the key splits into two
parts; any other shape raises ValueError on the destructuring (`none`). -/
def splitOD (key : String) : Option (String × String) :=
  match (splitOnPipe key.data).map String.mk with
  | [o, d] => some (o, d)
  | _ => none

/-- The state `run_MSA` carries across iterations: the edge list (flows,
costs, auxiliary flows) and the route-flow table `od_routes_flow`. -/
structure MSAState where
  edges : List Edge
  table : RouteTable

/-- The state threaded through the all-or-nothing loop of one iteration:
Python's ambient mutable `E` together with `min_routes` and
`od_routes_flow`. -/
structure AONState where
  edges : List Edge
  minRoutes : MinRoutes
  table : RouteTable

/-- The shortest-route computation for one OD pair after the key has been
split: `getPathAsEdges(dijkstra(N, E, o, d, []), E)` and `pathToStr`. -/
def computeMinRouteSplit (N : List Node) (E : List Edge) (o d : String) :
    Option (String × Route) :=
  match dijkstra N E o d [] with
  | none => none
  | some p =>
    match getPathAsEdges p E with
    | none => none
    | some es =>
      match pathToStr es E with
      | none => none
      | some rs => some (rs, es)

/-- The shortest-route computation for one OD pair of `run_MSA`: split the
dict key on `"|"` into origin and destination, then route between them. -/
def computeMinRoute (N : List Node) (E : List Edge) (odKey : String) :
    Option (String × Route) :=
  match splitOD odKey with
  | none => none
  | some (o, d) => computeMinRouteSplit N E o d

/-- One OD pair of the all-or-nothing loop: compute the current shortest
route, record it in `min_routes`, and if its string is new for this OD pair
append it to the pair's route table with flow 0 (`od_routes_flow[od]` raises
KeyError when the key is missing: `none`). -/
def aonStep (N : List Node) (st : AONState) (odKey : String) : Option AONState :=
  match computeMinRoute N st.edges odKey with
  | none => none
  | some (rs, es) =>
    match dlookup st.table odKey with
    | none => none
    | some odTable =>
      let odTable' := if (dlookup odTable rs).isSome then odTable else odTable ++ [(rs, (es, 0))]
      some ⟨st.edges, dinsert st.minRoutes odKey (rs, es), dinsert st.table odKey odTable'⟩

/-- The update `e.aux_flow += v` for every edge position of a route, in order. -/
def addRouteAux (es : Route) (v : ℚ) (edges : List Edge) : List Edge :=
  es.foldl
    (fun eds i =>
      match eds.get? i with
      | some ed => eds.set i { ed with aux_flow := ed.aux_flow + v }
      | none => eds)
    edges

/-- The body of the blending loop for one tracked route of one OD pair: the
auxiliary contribution `fa` is the OD demand exactly when the route string is
the iteration's best, the new flow is `max((1 - phi) * vna + phi * fa, 0)`,
and the new flow is added to the auxiliary flow of every edge of the route.
The accumulator rebuilds the OD pair's route list in order. -/
def blendEntry (phi q : ℚ) (best : String)
    (acc : List Edge × List (String × (Route × ℚ))) (ent : String × (Route × ℚ)) :
    List Edge × List (String × (Route × ℚ)) :=
  let fa : ℚ := if ent.1 == best then q else 0
  let vna : ℚ := max ((1 - phi) * ent.2.2 + phi * fa) 0
  (addRouteAux ent.2.1 vna acc.1, acc.2 ++ [(ent.1, (ent.2.1, vna))])

/-- The blending loop for one OD pair: iterate over every route ever recorded
for it (`min_routes[od]` and `od_routes_flow[od]` raise KeyError when
missing: `none`). -/
def blendOd (phi : ℚ) (minRoutes : MinRoutes) (st : List Edge × RouteTable)
    (p : String × ℚ) : Option (List Edge × RouteTable) :=
  match dlookup st.2 p.1, dlookup minRoutes p.1 with
  | some entries, some mr =>
    let r := entries.foldl (blendEntry phi p.2 mr.1) (st.1, [])
    some (r.1, dinsert st.2 p.1 r.2)
  | _, _ => none

/-- The all-or-nothing loop of one iteration: `for od in OD_matrix`, one
`aonStep` per OD pair (only the pair's key is read from the entry). -/
def aonLoop (N : List Node) (OD : ODMatrix) (a : AONState) : Option AONState :=
  OD.foldlM (fun a (p : String × ℚ) => aonStep N a p.1) a

/-- The blending loop of one iteration: `for od in OD_matrix`, one `blendOd`
per OD pair. -/
def blendLoop (phi : ℚ) (OD : ODMatrix) (minRoutes : MinRoutes)
    (b : List Edge × RouteTable) : Option (List Edge × RouteTable) :=
  OD.foldlM (blendOd phi minRoutes) b

/-- One iteration `n` of `run_MSA`: `phi = 1 / n`; clear every edge's
auxiliary flow; the all-or-nothing loop over the OD pairs; the blending loop
over the OD pairs; finally every edge's flow becomes its accumulated
auxiliary flow and its cost is re-evaluated. -/
def msaIteration (N : List Node) (OD : ODMatrix) (n : ℕ) (st : MSAState) :
    Option MSAState :=
  let phi : ℚ := 1 / (n : ℚ)
  let edges0 := st.edges.map (fun e => { e with aux_flow := 0 })
  match aonLoop N OD ⟨edges0, [], st.table⟩ with
  | none => none
  | some a =>
    match blendLoop phi OD a.minRoutes (a.edges, a.table) with
    | none => none
    | some b =>
      some ⟨b.1.map (fun e => Edge.update_cost { e with flow := e.aux_flow }), b.2⟩

/-- The `for n in range(1, its+1)` loop of `run_MSA`, with `n` the current
iteration number and `k` the iterations still to run. -/
def msaLoop (N : List Node) (OD : ODMatrix) : ℕ → ℕ → MSAState → Option MSAState
  | _, 0, st => some st
  | n, k+1, st =>
    match msaIteration N OD n st with
    | none => none
    | some st' => msaLoop N OD (n+1) k st'

/-- The dict comprehension initializing `od_routes_flow`: one empty route dict per OD key. -/
def initTable (OD : ODMatrix) : RouteTable :=
  OD.map (fun p => (p.1, []))

/-- Floor-based rounding to two decimals: `round(x * 100) / 100` (Python's
banker's rounding differs only on exact half-cent ties). -/
def round2 (x : ℚ) : ℚ :=
  ((Int.fdiv (x * 100 + 1/2).num (x * 100 + 1/2).den : ℤ) : ℚ) / 100

/-- The cached cost of the edge stored at position `i` of the edge list (the
positions stored in routes are always in range by construction). -/
def edgeCostD (E : List Edge) (i : Nat) : ℚ :=
  ((E.get? i).map Edge.cost).getD 0

/-- The inner edge loop of `evaluate_assignment` for one route: accumulates
the route's (unrounded) cost and adds `e.cost * route_flow` per edge to the
running `sum_tt`. -/
def routeScan (E : List Edge) (fl : ℚ) (es : Route) (s : ℚ) : ℚ × ℚ :=
  es.foldl (fun (acc : ℚ × ℚ) i => (acc.1 + edgeCostD E i, acc.2 + edgeCostD E i * fl)) (0, s)

/-- The per-OD-pair accumulator of `evaluate_assignment`: running `sum_tt`,
the minimum rounded route cost so far (`none` is the initial `float('inf')`),
and the `aux` list of (flow, rounded cost) pairs. -/
structure OdScanAcc where
  sum_tt : ℚ
  min_cost : Option ℚ
  aux : List (ℚ × ℚ)

/-- The body of the first route loop of `evaluate_assignment` for one route:
sum the edge costs into `cost` while accumulating `sum_tt`, round `cost` to
two decimals, lower `min_cost` on a strict improvement, and append
`(flow, cost)` to `aux`. -/
def odScanStep (E : List Edge) (acc : OdScanAcc) (ent : String × (Route × ℚ)) : OdScanAcc :=
  let r := routeScan E ent.2.2 ent.2.1 acc.sum_tt
  let cr := round2 r.1
  let mn :=
    match acc.min_cost with
    | none => some cr
    | some m => if cr < m then some cr else some m
  ⟨r.2, mn, acc.aux ++ [(ent.2.2, cr)]⟩

/-- The first route loop of `evaluate_assignment` for one OD pair
(`aux = []`, `min_cost = inf` at entry; `sum_tt` is ambient). -/
def odScan (E : List Edge) (entries : List (String × (Route × ℚ))) (s : ℚ) : OdScanAcc :=
  entries.foldl (odScanStep E) ⟨s, none, []⟩

/-- The aggregate scalars of `evaluate_assignment`. -/
structure EvalResult where
  sum_tt : ℚ
  sum_deviations : ℚ
  delta_top : ℚ
  delta_bottom : ℚ
  UE : ℚ

/-- The second route loop of `evaluate_assignment` for one OD pair: routes
whose rounded cost strictly exceeds the pair's minimum contribute their flow
to the deviation count, and every route adds `flow * (cost - min_cost)` to
`delta_top`. -/
def devScan (minc : ℚ) (aux : List (ℚ × ℚ)) (sd dt : ℚ) : ℚ × ℚ :=
  aux.foldl
    (fun (acc : ℚ × ℚ) e =>
      ((if minc < e.2 then acc.1 + e.1 else acc.1), acc.2 + e.1 * (e.2 - minc)))
    (sd, dt)

/-- The body of the OD-pair loop of `evaluate_assignment`: scan the pair's
routes, fold the deviation pass (skipped when the pair has no routes, since
`min_cost` stays `inf`), and add the pair's demand to `delta_bottom`
(`OD_matrix[od]` raises KeyError when the table has a key the OD matrix
lacks: `none`). -/
def evalOdStep (OD : ODMatrix) (E : List Edge) (acc : ℚ × ℚ × ℚ × ℚ)
    (odEntry : String × List (String × (Route × ℚ))) : Option (ℚ × ℚ × ℚ × ℚ) :=
  let sc := odScan E odEntry.2 acc.1
  let dts :=
    match sc.min_cost with
    | none => (acc.2.1, acc.2.2.1)
    | some m => devScan m sc.aux acc.2.1 acc.2.2.1
  match dlookup OD odEntry.1 with
  | none => none
  | some q => some (sc.sum_tt, dts.1, dts.2, acc.2.2.2 + q)

/-- Python `evaluate_assignment` (its computational core; the report-file writing is
I/O outside the core): iterate the route-flow table in insertion order,
accumulating `sum_tt`, `sum_deviations`, `delta_top` and `delta_bottom`,
then `UE = sum_tt / total_demand` — a zero total demand raises
ZeroDivisionError (`none`). -/
def evaluate_assignment (OD : ODMatrix) (table : RouteTable) (E : List Edge) :
    Option EvalResult :=
  match table.foldlM (evalOdStep OD E) ((0 : ℚ), (0 : ℚ), (0 : ℚ), (0 : ℚ)) with
  | none => none
  | some acc =>
    let total : ℚ := (OD.map Prod.snd).sum
    if total = 0 then none
    else some ⟨acc.1, acc.2.1, acc.2.2.1, acc.2.2.2, acc.1 / total⟩

/-- Python `run_MSA`: the iteration loop from `n = 1`, then the final evaluation;
returns the average travel time and the route-flow table as the Python
function does. -/
def run_MSA (its : ℕ) (N : List Node) (E : List Edge) (OD : ODMatrix) :
    Option (ℚ × RouteTable) :=
  match msaLoop N OD 1 its ⟨E, initTable OD⟩ with
  | none => none
  | some st =>
    match evaluate_assignment OD st.table st.edges with
    | none => none
    | some r => some (r.UE, st.table)

/-- The `od`-line branch of `generateGraph`, with the line already tokenized
(the tokenizer is an I/O wrapper outside the core): when the declared origin
and destination fields differ, store the pair's name with its demand —
nothing else from the line is kept. -/
def processODLine (name o d : String) (dem : ℚ) (OD : ODMatrix) : ODMatrix :=
  if o == d then OD else dinsert OD name dem

/-! ### Concrete example networks used by witnesses and counterexamples -/

/-- A linear cost function, `f(flow) = flow + 1`. -/
def exf1 : ℚ → ℚ := fun x => x + 1

/-- A constant cost function above the 1000000 distance sentinel. -/
def exfBig : ℚ → ℚ := fun _ => 2000000

/-- Two nodes `A`, `B`. -/
def exN : List Node := [mkNode "A", mkNode "B"]

/-- One edge `A-B` with cost `flow + 1`. -/
def exE : List Edge := [mkEdge "A" "B" exf1]

/-- One OD pair `A|B` with demand 5. -/
def exOD : ODMatrix := [("A|B", 5)]

/-! ### Helper lemmas -/

theorem dlookup_dinsert_self {α : Type} (m : List (String × α)) (k : String) (v : α) :
    dlookup (dinsert m k v) k = some v := by
  induction m with
  | nil => simp [dinsert, dlookup, List.find?]
  | cons hd tl ih =>
    obtain ⟨a, b⟩ := hd
    by_cases h : a = k
    · subst h
      simp [dinsert, dlookup, List.find?]
    · simp only [dinsert, show (a == k) = false from beq_eq_false_iff_ne.2 h, Bool.false_eq_true,
        if_false]
      simpa [dlookup, List.find?, show (a == k) = false from beq_eq_false_iff_ne.2 h] using ih

theorem dlookup_dinsert_ne {α : Type} (m : List (String × α)) (k k' : String) (v : α)
    (h : k' ≠ k) : dlookup (dinsert m k v) k' = dlookup m k' := by
  have hkk : (k == k') = false := beq_eq_false_iff_ne.2 (Ne.symm h)
  induction m with
  | nil => simp [dinsert, dlookup, List.find?, hkk]
  | cons hd tl ih =>
    obtain ⟨a, b⟩ := hd
    by_cases hh : a = k
    · subst hh
      simp [dinsert, dlookup, List.find?, hkk]
    · simp only [dinsert, show (a == k) = false from beq_eq_false_iff_ne.2 hh,
        Bool.false_eq_true, if_false]
      by_cases hk : a = k'
      · subst hk
        simp [dlookup, List.find?]
      · simp only [dlookup, List.find?,
          show (a == k') = false from beq_eq_false_iff_ne.2 hk] at ih ⊢
        exact ih

theorem lastIdxOf_eq_none_aux (nm : String) (N : List Node)
    (h : ∀ nd ∈ N, nd.name ≠ nm) :
    ∀ (n : Nat) (acc : Option Nat), acc = none →
      (List.enumFrom n N).foldl (fun acc p => if p.2.name == nm then some p.1 else acc) acc
        = none := by
  induction N with
  | nil => intro n acc h0; simpa using h0
  | cons hd tl ih =>
    intro n acc h0
    simp only [List.enumFrom_cons, List.foldl_cons]
    rw [if_neg (by simpa using h hd (List.mem_cons_self hd tl))]
    exact ih (fun nd hnd => h nd (List.mem_cons_of_mem hd hnd)) (n+1) acc h0

theorem lastIdxOf_eq_none (N : List Node) (nm : String)
    (h : ∀ nd ∈ N, nd.name ≠ nm) : lastIdxOf N nm = none := by
  unfold lastIdxOf
  rw [List.enum]
  exact lastIdxOf_eq_none_aux nm N h 0 none rfl

/-! ### Claim theorems -/

/-- C10: `dijkstra` called with a destination name that matches no node
returns neither a path nor a named error: the destination object stays
`None`, and the final predecessor-chain reconstruction dereferences it
(`u.prev` on `None`), so the call is undefined — modelled as `none` —
whatever the nodes, edges, origin and ignore set are. -/
theorem C10_dijkstra_absent_destination (N : List Node) (E : List Edge)
    (o dnm : String) (ign : List String) (h : ∀ nd ∈ N, nd.name ≠ dnm) :
    dijkstra N E o dnm ign = none := by
  have hnames : ∀ nd ∈ (resetGraph N).map
      (fun nd => if nd.name == o then { nd with dist := 0 } else nd), nd.name ≠ dnm := by
    intro nd hnd
    simp only [resetGraph, List.map_map, List.mem_map] at hnd
    obtain ⟨nd0, hnd0, rfl⟩ := hnd
    by_cases ho : (nd0.name == o) = true <;> simp [Function.comp, ho] <;> exact h nd0 hnd0
  show (let N1 := (resetGraph N).map
          (fun nd => if nd.name == o then { nd with dist := 0 } else nd)
        let dest := lastIdxOf N1 dnm
        match dijkstraLoop E ign dest (N1.length + 1) N1 with
        | none => none
        | some Nf =>
          match dest with
          | none => none
          | some di =>
            match Nf.get? di with
            | none => none
            | some dn => walkPrev Nf (Nf.length + 1) dn []) = none
  simp only [lastIdxOf_eq_none _ _ hnames]
  cases dijkstraLoop E ign none
      (((resetGraph N).map fun nd => if nd.name == o then { nd with dist := 0 } else nd).length + 1)
      ((resetGraph N).map fun nd => if nd.name == o then { nd with dist := 0 } else nd) <;> rfl

/-- Witness for C10 at a concrete input: the two-node network has no node
named `Z`, and `dijkstra` to `Z` yields `none`. -/
theorem C10_dijkstra_absent_destination_witness :
    (∀ nd ∈ exN, nd.name ≠ "Z") ∧ dijkstra exN exE "A" "Z" [] = none :=
  ⟨by decide, C10_dijkstra_absent_destination exN exE "A" "Z" [] (by decide)⟩

/-- C1 (the code, contrary to the spec's requirement): on a network whose OD
destination is unreachable from its origin, `run_MSA` raises no named
"Unreachable destination" error — `dijkstra` returns the single-node path
`[destination]`, `getPathAsEdges` turns it into the empty route, and
`pathToStr` crashes on `path[0]` (IndexError), modelled as `none`: the run
aborts with an unrelated uncaught exception and no result. -/
theorem C1_unreachable_destination_crashes :
    run_MSA 1 exN [] exOD = none := by with_unfolding_all rfl

/-- C7 (the code, contrary to the spec's requirement): with a single OD pair
of demand 0, the MSA loop completes but the final
`sum_tt / sum(OD_matrix.values())` divides by a zero total demand
(ZeroDivisionError, modelled as `none`); no explicit "no demand" condition is
reported. -/
theorem C7_zero_demand_division_error :
    run_MSA 1 exN exE [("A|B", 0)] = none := by with_unfolding_all rfl

/-- Counterexample to C8 as stated: for the two-node, one-edge network whose
(constant) edge cost 2000000 exceeds the 1000000 distance sentinel, the
relaxation never improves the destination's distance, `dijkstra` returns the
spurious single-node path, and the first iteration of `run_MSA` crashes in
`pathToStr` (modelled as `none`) — so after `run_MSA` with demand `D = 5` and
`n = 1` there is no tracked route whose flow equals `D` at all. -/
theorem C8_counterexample_sentinel_cost :
    run_MSA 1 exN [mkEdge "A" "B" exfBig] exOD = none := by with_unfolding_all rfl

theorem splitOnPipe_no_pipe (l : List Char) (h : '|' ∉ l) : splitOnPipe l = [l] := by
  induction l with
  | nil => rfl
  | cons c cs ih =>
    have hc : c ≠ '|' := fun e => h (e ▸ List.mem_cons_self c cs)
    have hcs : '|' ∉ cs := fun e => h (List.mem_cons_of_mem c e)
    simp [splitOnPipe, if_neg hc, ih hcs]

theorem splitOnPipe_append (lo ld : List Char) (h1 : '|' ∉ lo) (h2 : '|' ∉ ld) :
    splitOnPipe (lo ++ '|' :: ld) = [lo, ld] := by
  induction lo with
  | nil => simp [splitOnPipe, splitOnPipe_no_pipe ld h2]
  | cons c cs ih =>
    have hc : c ≠ '|' := fun e => h1 (e ▸ List.mem_cons_self c cs)
    have hcs : '|' ∉ cs := fun e => h1 (List.mem_cons_of_mem c e)
    simp [splitOnPipe, if_neg hc, ih hcs]

theorem splitOD_append (lo ld : List Char) (h1 : '|' ∉ lo) (h2 : '|' ∉ ld) :
    splitOD ⟨lo ++ '|' :: ld⟩ = some (⟨lo⟩, ⟨ld⟩) := by
  unfold splitOD
  rw [show (String.mk (lo ++ '|' :: ld)).data = lo ++ '|' :: ld from rfl,
    splitOnPipe_append lo ld h1 h2]
  rfl

/-- C9: the origin and destination actually routed by `run_MSA` come from
splitting the OD dict key on `"|"` — the part before `"|"` is the origin and
the part after it the destination — while the origin and destination name
fields of an `od` input line are used only for the `origin != destination`
check in `generateGraph` and are then discarded (only the pair's name and
demand are stored, whatever the fields were). -/
theorem C9_od_key_split (N : List Node) (E : List Edge) (lo ld : List Char)
    (h1 : '|' ∉ lo) (h2 : '|' ∉ ld) (name o d o' d' : String) (dem : ℚ)
    (m : ODMatrix) (ho : o ≠ d) (ho' : o' ≠ d') :
    splitOD ⟨lo ++ '|' :: ld⟩ = some (⟨lo⟩, ⟨ld⟩) ∧
    computeMinRoute N E ⟨lo ++ '|' :: ld⟩ = computeMinRouteSplit N E ⟨lo⟩ ⟨ld⟩ ∧
    processODLine name o d dem m = dinsert m name dem ∧
    processODLine name o d dem m = processODLine name o' d' dem m := by
  have hs := splitOD_append lo ld h1 h2
  refine ⟨hs, ?_, ?_, ?_⟩
  · unfold computeMinRoute
    rw [hs]
  · unfold processODLine
    rw [if_neg (by simpa using ho)]
  · unfold processODLine
    rw [if_neg (by simpa using ho), if_neg (by simpa using ho')]

/-- Witness for C9 at a concrete input: the key `"A|B"` routes origin `"A"`
to destination `"B"`, and the `od` line's origin/destination fields are
discarded after the check. -/
theorem C9_od_key_split_witness :
    ('|' ∉ ['A']) ∧ ('|' ∉ ['B']) ∧ ("X" : String) ≠ "Y" ∧ ("P" : String) ≠ "Q" ∧
    (splitOD ⟨['A'] ++ '|' :: ['B']⟩ = some (⟨['A']⟩, ⟨['B']⟩) ∧
     computeMinRoute exN exE ⟨['A'] ++ '|' :: ['B']⟩ = computeMinRouteSplit exN exE ⟨['A']⟩ ⟨['B']⟩ ∧
     processODLine "AB" "X" "Y" 5 [] = dinsert [] "AB" 5 ∧
     processODLine "AB" "X" "Y" 5 [] = processODLine "AB" "P" "Q" 5 []) :=
  ⟨by decide, by decide, by decide, by decide,
    C9_od_key_split exN exE ['A'] ['B'] (by decide) (by decide) "AB" "X" "Y" "P" "Q" 5 []
      (by decide) (by decide)⟩

theorem aonStep_characterize (N : List Node) (a : AONState) (k : String) (a' : AONState)
    (h : aonStep N a k = some a') :
    a'.edges = a.edges ∧
    ∃ rs es odT, computeMinRoute N a.edges k = some (rs, es) ∧
      dlookup a.table k = some odT ∧
      a'.minRoutes = dinsert a.minRoutes k (rs, es) ∧
      a'.table = dinsert a.table k
        (if (dlookup odT rs).isSome then odT else odT ++ [(rs, (es, 0))]) := by
  unfold aonStep at h
  cases hc : computeMinRoute N a.edges k with
  | none => rw [hc] at h; exact absurd h (by simp)
  | some p =>
    obtain ⟨rs, es⟩ := p
    rw [hc] at h
    cases ht : dlookup a.table k with
    | none => rw [ht] at h; exact absurd h (by simp)
    | some odT =>
      rw [ht] at h
      simp only [Option.some.injEq] at h
      refine ⟨by rw [← h], rs, es, odT, rfl, rfl, by rw [← h], by rw [← h]⟩

theorem aonLoop_cons (N : List Node) (hd : String × ℚ) (tl : ODMatrix) (a : AONState) :
    aonLoop N (hd :: tl) a = (aonStep N a hd.1).bind (aonLoop N tl) := by
  unfold aonLoop
  rw [List.foldlM_cons]
  cases aonStep N a hd.1 <;> rfl

theorem aonLoop_edges (N : List Node) (OD : ODMatrix) (a a' : AONState)
    (h : aonLoop N OD a = some a') : a'.edges = a.edges := by
  induction OD generalizing a with
  | nil =>
    unfold aonLoop at h
    simp only [List.foldlM_nil, Option.pure_def, Option.some.injEq] at h
    rw [← h]
  | cons hd tl ih =>
    rw [aonLoop_cons] at h
    cases hs : aonStep N a hd.1 with
    | none => rw [hs] at h; exact absurd h (by simp)
    | some a1 =>
      rw [hs, Option.some_bind] at h
      rw [ih a1 h, (aonStep_characterize N a hd.1 a1 hs).1]

theorem aonLoop_minRoutes_frozen (N : List Node) (OD : ODMatrix) (a a' : AONState)
    (h : aonLoop N OD a = some a') (k : String) (hk : k ∉ OD.map Prod.fst) :
    dlookup a'.minRoutes k = dlookup a.minRoutes k := by
  induction OD generalizing a with
  | nil =>
    unfold aonLoop at h
    simp only [List.foldlM_nil, Option.pure_def, Option.some.injEq] at h
    rw [← h]
  | cons hd tl ih =>
    rw [aonLoop_cons] at h
    cases hs : aonStep N a hd.1 with
    | none => rw [hs] at h; exact absurd h (by simp)
    | some a1 =>
      rw [hs, Option.some_bind] at h
      have hk1 : k ∉ tl.map Prod.fst := fun hmem => hk (by simp [hmem])
      have hkhd : k ≠ hd.1 := fun e => hk (by simp [e])
      obtain ⟨-, rs, es, odT, -, -, hmr, -⟩ := aonStep_characterize N a hd.1 a1 hs
      rw [ih a1 h hk1, hmr, dlookup_dinsert_ne _ _ _ _ hkhd]

theorem aonLoop_minRoutes (N : List Node) (OD : ODMatrix) (a a' : AONState)
    (hnd : (OD.map Prod.fst).Nodup) (h : aonLoop N OD a = some a') :
    ∀ od ∈ OD.map Prod.fst, dlookup a'.minRoutes od = computeMinRoute N a.edges od := by
  induction OD generalizing a with
  | nil => intro od hod; exact absurd hod (by simp)
  | cons hd tl ih =>
    rw [aonLoop_cons] at h
    cases hs : aonStep N a hd.1 with
    | none => rw [hs] at h; exact absurd h (by simp)
    | some a1 =>
      rw [hs, Option.some_bind] at h
      obtain ⟨hedges, rs, es, odT, hcmr, -, hmr, -⟩ := aonStep_characterize N a hd.1 a1 hs
      simp only [List.map_cons, List.nodup_cons] at hnd
      intro od hod
      rcases List.mem_cons.1 hod with hodhd | hodtl
      · subst hodhd
        rw [aonLoop_minRoutes_frozen N tl a1 a' h hd.1 hnd.1, hmr,
          dlookup_dinsert_self, hcmr]
      · have := ih a1 hnd.2 h od hodtl
        rw [this, hedges]

/-- C2: within one MSA iteration, the all-or-nothing loop leaves the edge
list — flows, costs, and the already-cleared auxiliary flows — entirely
unchanged, and the shortest route recorded for every OD pair equals the one
computed against the iteration's initial edge snapshot (the pre-iteration
flows and costs, auxiliary flow cleared, exactly as `msaIteration` builds
it): a synchronous/Jacobi-style update in which no edge flow or cost is
mutated before every pair's route is known. -/
theorem C2_jacobi_snapshot (N : List Node) (OD : ODMatrix) (st : MSAState)
    (a' : AONState) (hnd : (OD.map Prod.fst).Nodup)
    (h : aonLoop N OD ⟨st.edges.map (fun e => { e with aux_flow := 0 }), [], st.table⟩
          = some a') :
    a'.edges = st.edges.map (fun e => { e with aux_flow := 0 }) ∧
    a'.edges.map Edge.flow = st.edges.map Edge.flow ∧
    a'.edges.map Edge.cost = st.edges.map Edge.cost ∧
    ∀ od ∈ OD.map Prod.fst,
      dlookup a'.minRoutes od
        = computeMinRoute N (st.edges.map (fun e => { e with aux_flow := 0 })) od := by
  have he := aonLoop_edges N OD _ a' h
  refine ⟨he, ?_, ?_, ?_⟩
  · rw [he, List.map_map]; rfl
  · rw [he, List.map_map]; rfl
  · exact aonLoop_minRoutes N OD _ a' hnd h

/-- Witness for C2 at a concrete input: a two-pair network (one OD pair per
direction) whose all-or-nothing loop is run on the aux-cleared snapshot. -/
theorem C2_jacobi_snapshot_witness :
    ((([("A|B", (5:ℚ)), ("B|A", 2)] : ODMatrix).map Prod.fst).Nodup ∧
      aonLoop exN [("A|B", 5), ("B|A", 2)]
        ⟨(exE ++ [mkEdge "B" "A" exf1]).map (fun e => { e with aux_flow := 0 }), [],
          initTable [("A|B", 5), ("B|A", 2)]⟩
        = some ⟨(exE ++ [mkEdge "B" "A" exf1]).map (fun e => { e with aux_flow := 0 }),
            [("A|B", ("A-B", [0])), ("B|A", ("B-A", [1]))],
            [("A|B", [("A-B", ([0], 0))]), ("B|A", [("B-A", ([1], 0))])]⟩) ∧
    (∀ od ∈ ([("A|B", (5:ℚ)), ("B|A", 2)] : ODMatrix).map Prod.fst,
      dlookup ([("A|B", ("A-B", [0])), ("B|A", ("B-A", [1]))] : MinRoutes) od
        = computeMinRoute exN
            ((exE ++ [mkEdge "B" "A" exf1]).map (fun e => { e with aux_flow := 0 })) od) :=
  ⟨⟨by decide, by with_unfolding_all rfl⟩,
    (C2_jacobi_snapshot exN [("A|B", 5), ("B|A", 2)]
      ⟨exE ++ [mkEdge "B" "A" exf1], initTable [("A|B", 5), ("B|A", 2)]⟩
      ⟨(exE ++ [mkEdge "B" "A" exf1]).map (fun e => { e with aux_flow := 0 }),
        [("A|B", ("A-B", [0])), ("B|A", ("B-A", [1]))],
        [("A|B", [("A-B", ([0], 0))]), ("B|A", [("B-A", ([1], 0))])]⟩
      (by decide) (by with_unfolding_all rfl)).2.2.2⟩

/-- The route-flow table tracks route `rs` for OD key `od`. -/
def hasRoute (t : RouteTable) (od rs : String) : Bool :=
  match dlookup t od with
  | none => false
  | some l => (dlookup l rs).isSome

theorem hasRoute_iff (t : RouteTable) (od rs : String) :
    hasRoute t od rs = true ↔
      ∃ l, dlookup t od = some l ∧ (dlookup l rs).isSome = true := by
  unfold hasRoute
  cases h : dlookup t od <;> simp [h]

theorem dlookup_append_left {α : Type} (l₁ l₂ : List (String × α)) (k : String)
    (h : (dlookup l₁ k).isSome = true) : dlookup (l₁ ++ l₂) k = dlookup l₁ k := by
  induction l₁ with
  | nil => simp [dlookup, List.find?] at h
  | cons hd tl ih =>
    cases hk : hd.1 == k with
    | true => simp [dlookup, List.find?, hk]
    | false =>
      simp only [dlookup, List.find?, hk] at h ⊢
      exact ih h

theorem dlookup_map_isSome {α β : Type} (l : List (String × α))
    (g : String × α → β) (k : String) :
    (dlookup (l.map (fun ent => (ent.1, g ent))) k).isSome = (dlookup l k).isSome := by
  induction l with
  | nil => rfl
  | cons hd tl ih =>
    cases hk : hd.1 == k with
    | true => simp [dlookup, List.find?, hk]
    | false =>
      simp only [dlookup, List.map_cons, List.find?, hk] at ih ⊢
      exact ih

theorem blend_fold_snd (phi q : ℚ) (best : String)
    (entries : List (String × (Route × ℚ))) (eds : List Edge)
    (acc : List (String × (Route × ℚ))) :
    (entries.foldl (blendEntry phi q best) (eds, acc)).2
      = acc ++ entries.map (fun ent =>
          (ent.1, (ent.2.1,
            max ((1 - phi) * ent.2.2 + phi * (if ent.1 == best then q else 0)) 0))) := by
  induction entries generalizing eds acc with
  | nil => simp
  | cons hd tl ih =>
    simp only [List.foldl_cons, List.map_cons]
    rw [show blendEntry phi q best (eds, acc) hd
        = (addRouteAux hd.2.1 (max ((1 - phi) * hd.2.2
            + phi * (if hd.1 == best then q else 0)) 0) eds,
           acc ++ [(hd.1, (hd.2.1,
            max ((1 - phi) * hd.2.2 + phi * (if hd.1 == best then q else 0)) 0))]) from rfl]
    rw [ih]
    simp

theorem blendOd_characterize (phi : ℚ) (minRoutes : MinRoutes)
    (st : List Edge × RouteTable) (p : String × ℚ) (r : List Edge × RouteTable)
    (h : blendOd phi minRoutes st p = some r) :
    ∃ entries best broute,
      dlookup st.2 p.1 = some entries ∧
      dlookup minRoutes p.1 = some (best, broute) ∧
      r.1 = (entries.foldl (blendEntry phi p.2 best) (st.1, [])).1 ∧
      r.2 = dinsert st.2 p.1 (entries.map (fun ent =>
        (ent.1, (ent.2.1,
          max ((1 - phi) * ent.2.2 + phi * (if ent.1 == best then p.2 else 0)) 0)))) := by
  unfold blendOd at h
  cases ht : dlookup st.2 p.1 with
  | none => rw [ht] at h; exact absurd h (by simp)
  | some entries =>
    cases hm : dlookup minRoutes p.1 with
    | none => rw [ht, hm] at h; exact absurd h (by simp)
    | some mr =>
      obtain ⟨best, broute⟩ := mr
      rw [ht, hm] at h
      simp only [Option.some.injEq] at h
      refine ⟨entries, best, broute, rfl, rfl, by rw [← h], ?_⟩
      rw [← h]
      show dinsert st.2 p.1 (entries.foldl (blendEntry phi p.2 best) (st.1, [])).2 = _
      rw [blend_fold_snd]
      simp

theorem blendOd_hasRoute (phi : ℚ) (mr : MinRoutes) (st : List Edge × RouteTable)
    (p : String × ℚ) (r : List Edge × RouteTable) (h : blendOd phi mr st p = some r)
    (od rs : String) (hr : hasRoute st.2 od rs = true) : hasRoute r.2 od rs = true := by
  obtain ⟨l, hl, hls⟩ := (hasRoute_iff _ _ _).1 hr
  obtain ⟨entries, best, broute, hentries, -, -, htab⟩ := blendOd_characterize phi mr st p r h
  by_cases hk : od = p.1
  · subst hk
    have hle : l = entries := by rw [hl] at hentries; exact Option.some.inj hentries
    subst hle
    refine (hasRoute_iff _ _ _).2 ⟨_, by rw [htab, dlookup_dinsert_self], ?_⟩
    rw [dlookup_map_isSome]
    exact hls
  · exact (hasRoute_iff _ _ _).2 ⟨l, by rw [htab, dlookup_dinsert_ne _ _ _ _ hk, hl], hls⟩

theorem aonStep_hasRoute (N : List Node) (a a' : AONState) (k : String)
    (h : aonStep N a k = some a') (od rs : String)
    (hr : hasRoute a.table od rs = true) : hasRoute a'.table od rs = true := by
  obtain ⟨l, hl, hls⟩ := (hasRoute_iff _ _ _).1 hr
  obtain ⟨-, rs', es', odT, -, hodT, -, htab⟩ := aonStep_characterize N a k a' h
  by_cases hk : od = k
  · subst hk
    have hle : l = odT := by rw [hl] at hodT; exact Option.some.inj hodT
    subst hle
    refine (hasRoute_iff _ _ _).2 ⟨_, by rw [htab, dlookup_dinsert_self], ?_⟩
    by_cases hp : (dlookup l rs').isSome = true
    · rw [if_pos hp]; exact hls
    · rw [if_neg hp, dlookup_append_left _ _ _ hls]
      exact hls
  · exact (hasRoute_iff _ _ _).2 ⟨l, by rw [htab, dlookup_dinsert_ne _ _ _ _ hk, hl], hls⟩

theorem aonLoop_hasRoute (N : List Node) (OD : ODMatrix) (a a' : AONState)
    (h : aonLoop N OD a = some a') (od rs : String)
    (hr : hasRoute a.table od rs = true) : hasRoute a'.table od rs = true := by
  induction OD generalizing a with
  | nil =>
    unfold aonLoop at h
    simp only [List.foldlM_nil, Option.pure_def, Option.some.injEq] at h
    rw [← h]; exact hr
  | cons hd tl ih =>
    rw [aonLoop_cons] at h
    cases hs : aonStep N a hd.1 with
    | none => rw [hs] at h; exact absurd h (by simp)
    | some a1 =>
      rw [hs, Option.some_bind] at h
      exact ih a1 h (aonStep_hasRoute N a a1 hd.1 hs od rs hr)

theorem blendLoop_cons (phi : ℚ) (hd : String × ℚ) (tl : ODMatrix) (mr : MinRoutes)
    (b : List Edge × RouteTable) :
    blendLoop phi (hd :: tl) mr b = (blendOd phi mr b hd).bind (blendLoop phi tl mr) := by
  unfold blendLoop
  rw [List.foldlM_cons]
  cases blendOd phi mr b hd <;> rfl

theorem blendLoop_hasRoute (phi : ℚ) (OD : ODMatrix) (mr : MinRoutes)
    (b b' : List Edge × RouteTable) (h : blendLoop phi OD mr b = some b')
    (od rs : String) (hr : hasRoute b.2 od rs = true) : hasRoute b'.2 od rs = true := by
  induction OD generalizing b with
  | nil =>
    unfold blendLoop at h
    simp only [List.foldlM_nil, Option.pure_def, Option.some.injEq] at h
    rw [← h]; exact hr
  | cons hd tl ih =>
    rw [blendLoop_cons] at h
    cases hs : blendOd phi mr b hd with
    | none => rw [hs] at h; exact absurd h (by simp)
    | some b1 =>
      rw [hs, Option.some_bind] at h
      exact ih b1 h (blendOd_hasRoute phi mr b hd b1 hs od rs hr)

theorem msaIteration_hasRoute (N : List Node) (OD : ODMatrix) (n : ℕ)
    (st st' : MSAState) (h : msaIteration N OD n st = some st') (od rs : String)
    (hr : hasRoute st.table od rs = true) : hasRoute st'.table od rs = true := by
  simp only [msaIteration] at h
  split at h
  · exact absurd h (by simp)
  · rename_i a ha
    split at h
    · exact absurd h (by simp)
    · rename_i b hb
      simp only [Option.some.injEq] at h
      have h1 : hasRoute a.table od rs = true := aonLoop_hasRoute N OD _ a ha od rs hr
      have h2 : hasRoute b.2 od rs = true := blendLoop_hasRoute _ OD _ _ b hb od rs h1
      rw [← h]
      exact h2

theorem msaLoop_hasRoute (N : List Node) (OD : ODMatrix) :
    ∀ (k n : ℕ) (st st' : MSAState), msaLoop N OD n k st = some st' →
      ∀ od rs, hasRoute st.table od rs = true → hasRoute st'.table od rs = true := by
  intro k
  induction k with
  | zero =>
    intro n st st' h od rs hr
    unfold msaLoop at h
    simp only [Option.some.injEq] at h
    rw [← h]; exact hr
  | succ k ih =>
    intro n st st' h od rs hr
    unfold msaLoop at h
    cases hi : msaIteration N OD n st with
    | none => rw [hi] at h; exact absurd h (by simp)
    | some st1 =>
      rw [hi] at h
      exact ih (n+1) st1 st' h od rs (msaIteration_hasRoute N OD n st st1 hi od rs hr)

/-- C5: across any number of MSA iterations the route-flow table only gains
entries — a tracked route of an OD pair is still tracked after every further
iteration (its entry persists even at flow zero) — and whenever the
all-or-nothing step discovers a route string that the OD pair's table does
not yet contain, it appends that route with flow 0. -/
theorem C5_routes_persist (N : List Node) (OD : ODMatrix) (n k : ℕ)
    (st st' : MSAState) (h : msaLoop N OD n k st = some st') (od rs : String)
    (hr : hasRoute st.table od rs = true) :
    hasRoute st'.table od rs = true ∧
    (∀ (a a' : AONState) (key rs' : String) (es : Route)
        (odT : List (String × (Route × ℚ))),
      aonStep N a key = some a' →
      dlookup a.table key = some odT →
      computeMinRoute N a.edges key = some (rs', es) →
      (dlookup odT rs').isSome = false →
      dlookup a'.table key = some (odT ++ [(rs', (es, 0))])) := by
  refine ⟨msaLoop_hasRoute N OD k n st st' h od rs hr, ?_⟩
  intro a a' key rs' es odT hs hodT hcmr hnew
  obtain ⟨-, rs2, es2, odT2, hcmr2, hodT2, -, htab⟩ := aonStep_characterize N a key a' hs
  have hre : rs2 = rs' ∧ es2 = es := by
    rw [hcmr] at hcmr2
    have h2 := Option.some.inj hcmr2
    exact ⟨(congrArg Prod.fst h2).symm, (congrArg Prod.snd h2).symm⟩
  have hoe : odT2 = odT := by
    rw [hodT] at hodT2
    exact (Option.some.inj hodT2).symm
  rw [htab, hoe, hre.1, hre.2, if_neg (by rw [hnew]; exact Bool.false_ne_true),
    dlookup_dinsert_self]

/-- Witness for C5 at a concrete input: from the state reached after one
iteration of the two-node network (route `A-B` tracked with flow 5), one more
iteration still tracks `A-B`. -/
theorem C5_routes_persist_witness :
    (msaLoop exN exOD 2 1
        ⟨[⟨"A", "B", exf1, 5, 6, 5⟩], [("A|B", [("A-B", ([0], 5))])]⟩
      = some ⟨[⟨"A", "B", exf1, 5, 6, 5⟩], [("A|B", [("A-B", ([0], 5))])]⟩) ∧
    hasRoute [("A|B", [("A-B", ([0], 5))])] "A|B" "A-B" = true ∧
    hasRoute [("A|B", [("A-B", ([0], 5))])] "A|B" "A-B" = true :=
  ⟨by with_unfolding_all rfl, by decide,
    (C5_routes_persist exN exOD 2 1
      ⟨[⟨"A", "B", exf1, 5, 6, 5⟩], [("A|B", [("A-B", ([0], 5))])]⟩
      ⟨[⟨"A", "B", exf1, 5, 6, 5⟩], [("A|B", [("A-B", ([0], 5))])]⟩
      (by with_unfolding_all rfl) "A|B" "A-B" (by decide)).1⟩

theorem addRouteAux_get? (v : ℚ) (es : Route) (eds : List Edge) (i : ℕ) :
    (addRouteAux es v eds).get? i
      = (eds.get? i).map (fun ed =>
          { ed with aux_flow := ed.aux_flow + (es.count i : ℚ) * v }) := by
  induction es generalizing eds with
  | nil =>
    show eds.get? i = _
    cases h : eds.get? i with
    | none => rfl
    | some ed =>
      simp only [Option.map_some', List.count_nil, Nat.cast_zero, zero_mul, add_zero]
  | cons j es ih =>
    have hstep : addRouteAux (j :: es) v eds
        = addRouteAux es v (match eds.get? j with
            | some ed => eds.set j { ed with aux_flow := ed.aux_flow + v }
            | none => eds) := rfl
    rw [hstep, ih]
    cases hj : eds.get? j with
    | none =>
      by_cases hij : i = j
      · subst hij
        rw [hj]
        rfl
      · rw [List.count_cons_of_ne hij]
    | some ed =>
      by_cases hij : i = j
      · subst hij
        rw [List.get?_set_eq, hj]
        show some _ = some _
        rw [Option.some.injEq, List.count_cons_self]
        show ({ ed with aux_flow := (ed.aux_flow + v) + (es.count i : ℚ) * v } : Edge) = _
        congr 1
        push_cast
        ring
      · rw [List.get?_set_ne _ _ (fun e => hij e.symm), List.count_cons_of_ne hij]

theorem blendLoop_table_frozen (phi : ℚ) (OD : ODMatrix) (mr : MinRoutes)
    (b b' : List Edge × RouteTable) (h : blendLoop phi OD mr b = some b')
    (k : String) (hk : k ∉ OD.map Prod.fst) : dlookup b'.2 k = dlookup b.2 k := by
  induction OD generalizing b with
  | nil =>
    unfold blendLoop at h
    simp only [List.foldlM_nil, Option.pure_def, Option.some.injEq] at h
    rw [← h]
  | cons hd tl ih =>
    rw [blendLoop_cons] at h
    cases hs : blendOd phi mr b hd with
    | none => rw [hs] at h; exact absurd h (by simp)
    | some b1 =>
      rw [hs, Option.some_bind] at h
      obtain ⟨entries, best, broute, -, -, -, htab⟩ := blendOd_characterize phi mr b hd b1 hs
      have hk1 : k ∉ tl.map Prod.fst := fun hm => hk (by simp [hm])
      have hkhd : k ≠ hd.1 := fun e => hk (by simp [e])
      rw [ih b1 h hk1, htab, dlookup_dinsert_ne _ _ _ _ hkhd]

theorem blendLoop_lookup (phi : ℚ) (mr : MinRoutes) (od best : String) (q : ℚ)
    (broute : Route) (hbest : dlookup mr od = some (best, broute)) :
    ∀ (OD : ODMatrix) (b b' : List Edge × RouteTable),
      (OD.map Prod.fst).Nodup → blendLoop phi OD mr b = some b' → (od, q) ∈ OD →
      ∀ entries, dlookup b.2 od = some entries →
      dlookup b'.2 od = some (entries.map (fun ent =>
        (ent.1, (ent.2.1,
          max ((1 - phi) * ent.2.2 + phi * (if ent.1 == best then q else 0)) 0)))) := by
  intro OD
  induction OD with
  | nil => intro b b' _ _ hod; exact absurd hod (by simp)
  | cons hd tl ih =>
    intro b b' hnd h hod entries hent
    rw [blendLoop_cons] at h
    cases hs : blendOd phi mr b hd with
    | none => rw [hs] at h; exact absurd h (by simp)
    | some b1 =>
      rw [hs, Option.some_bind] at h
      simp only [List.map_cons, List.nodup_cons] at hnd
      rcases List.mem_cons.1 hod with heq | hodtl
      · obtain ⟨entries2, best2, broute2, hent2, hbest2, -, htab⟩ :=
          blendOd_characterize phi mr b hd b1 hs
        have hhd1 : hd.1 = od := by rw [← heq]
        have he : entries2 = entries := by
          rw [hhd1, hent] at hent2
          exact (Option.some.inj hent2).symm
        have hb2 : best2 = best := by
          rw [hhd1, hbest] at hbest2
          exact (congrArg Prod.fst (Option.some.inj hbest2)).symm
        have hq : hd.2 = q := by rw [← heq]
        have hodni : od ∉ tl.map Prod.fst := hhd1 ▸ hnd.1
        rw [blendLoop_table_frozen phi tl mr b1 b' h od hodni, htab, hhd1,
          dlookup_dinsert_self, he, hb2, hq]
      · have hkhd : hd.1 ≠ od := by
          intro e
          exact hnd.1 (e ▸ List.mem_map.2 ⟨(od, q), hodtl, rfl⟩)
        obtain ⟨entries2, best2, broute2, -, -, -, htab⟩ :=
          blendOd_characterize phi mr b hd b1 hs
        have hent1 : dlookup b1.2 od = some entries := by
          rw [htab, dlookup_dinsert_ne _ _ _ _ (Ne.symm hkhd), hent]
        exact ih b1 b' hnd.2 h hodtl entries hent1

theorem msaIteration_decompose (N : List Node) (OD : ODMatrix) (n : ℕ)
    (st st' : MSAState) (h : msaIteration N OD n st = some st') :
    ∃ (a : AONState) (b : List Edge × RouteTable),
      aonLoop N OD ⟨st.edges.map (fun e => { e with aux_flow := 0 }), [], st.table⟩ = some a
      ∧ blendLoop (1 / (n : ℚ)) OD a.minRoutes (a.edges, a.table) = some b
      ∧ st' = ⟨b.1.map (fun e => Edge.update_cost { e with flow := e.aux_flow }), b.2⟩ := by
  simp only [msaIteration] at h
  split at h
  · exact absurd h (by simp)
  · rename_i a ha
    split at h
    · exact absurd h (by simp)
    · rename_i b hb
      exact ⟨a, b, ha, hb, (Option.some.inj h).symm⟩

/-- C3: in iteration `n` (so `phi = 1 / n`), for every OD pair and every
route ever recorded for it — the whole post-all-or-nothing route list of the
pair — the blending loop updates the route's flow to exactly
`max((1 - phi) * flow + phi * fa, 0)` where `fa` is the full OD demand when
the route string is the pair's current best and 0 otherwise; and the
per-route auxiliary update adds the updated flow once per occurrence of an
edge on the route to that edge's auxiliary flow. -/
theorem C3_blending_update (N : List Node) (OD : ODMatrix) (n : ℕ) (st st' : MSAState)
    (hnd : (OD.map Prod.fst).Nodup) (h : msaIteration N OD n st = some st')
    (a : AONState)
    (ha : aonLoop N OD ⟨st.edges.map (fun e => { e with aux_flow := 0 }), [], st.table⟩
            = some a)
    (od best : String) (q : ℚ) (hod : (od, q) ∈ OD) (broute : Route)
    (hbest : dlookup a.minRoutes od = some (best, broute))
    (entries : List (String × (Route × ℚ))) (hent : dlookup a.table od = some entries) :
    (∃ b, blendLoop (1 / (n : ℚ)) OD a.minRoutes (a.edges, a.table) = some b ∧
      st'.table = b.2 ∧
      dlookup b.2 od = some (entries.map (fun ent =>
        (ent.1, (ent.2.1,
          max ((1 - 1 / (n : ℚ)) * ent.2.2
            + (1 / (n : ℚ)) * (if ent.1 == best then q else 0)) 0))))) ∧
    (∀ (es : Route) (v : ℚ) (eds : List Edge) (i : ℕ),
      (addRouteAux es v eds).get? i
        = (eds.get? i).map (fun ed =>
            { ed with aux_flow := ed.aux_flow + (es.count i : ℚ) * v })) := by
  obtain ⟨a2, b, ha2, hb, hst⟩ := msaIteration_decompose N OD n st st' h
  have haa : a2 = a := by
    rw [ha] at ha2
    exact (Option.some.inj ha2).symm
  subst haa
  refine ⟨⟨b, hb, by rw [hst], ?_⟩, fun es v eds i => addRouteAux_get? v es eds i⟩
  exact blendLoop_lookup (1 / (n : ℚ)) a2.minRoutes od best q broute hbest OD
    (a2.edges, a2.table) b hnd hb hod entries hent

/-- Witness for C3 at a concrete input: the second iteration (`phi = 1/2`) of
the two-node network, whose single tracked route is the current best. -/
theorem C3_blending_update_witness :
    ((([("A|B", (5:ℚ))] : ODMatrix).map Prod.fst).Nodup ∧
     msaIteration exN exOD 2 ⟨[⟨"A", "B", exf1, 5, 6, 5⟩], [("A|B", [("A-B", ([0], 5))])]⟩
       = some ⟨[⟨"A", "B", exf1, 5, 6, 5⟩], [("A|B", [("A-B", ([0], 5))])]⟩ ∧
     aonLoop exN exOD
        ⟨([⟨"A", "B", exf1, 5, 6, 5⟩] : List Edge).map (fun e => { e with aux_flow := 0 }), [],
          [("A|B", [("A-B", ([0], 5))])]⟩
       = some ⟨[⟨"A", "B", exf1, 5, 6, 0⟩], [("A|B", ("A-B", [0]))],
           [("A|B", [("A-B", ([0], 5))])]⟩ ∧
     ("A|B", (5:ℚ)) ∈ exOD ∧
     dlookup ([("A|B", ("A-B", [0]))] : MinRoutes) "A|B" = some ("A-B", [0]) ∧
     dlookup ([("A|B", [("A-B", ([0], 5))])] : RouteTable) "A|B"
       = some [("A-B", ([0], 5))]) ∧
    (∃ b, blendLoop (1 / ((2:ℕ) : ℚ)) exOD [("A|B", ("A-B", [0]))]
        ([⟨"A", "B", exf1, 5, 6, 0⟩], [("A|B", [("A-B", ([0], 5))])]) = some b ∧
      (⟨[⟨"A", "B", exf1, 5, 6, 5⟩], [("A|B", [("A-B", ([0], 5))])]⟩ : MSAState).table = b.2 ∧
      dlookup b.2 "A|B" = some ([("A-B", ([0], 5))].map (fun ent =>
        (ent.1, (ent.2.1,
          max ((1 - 1 / ((2:ℕ) : ℚ)) * ent.2.2
            + (1 / ((2:ℕ) : ℚ)) * (if ent.1 == "A-B" then (5:ℚ) else 0)) 0))))) :=
  ⟨⟨by decide, by with_unfolding_all rfl, by with_unfolding_all rfl, by decide,
      by with_unfolding_all rfl, by with_unfolding_all rfl⟩,
    (C3_blending_update exN exOD 2
      ⟨[⟨"A", "B", exf1, 5, 6, 5⟩], [("A|B", [("A-B", ([0], 5))])]⟩
      ⟨[⟨"A", "B", exf1, 5, 6, 5⟩], [("A|B", [("A-B", ([0], 5))])]⟩
      (by decide) (by with_unfolding_all rfl)
      ⟨[⟨"A", "B", exf1, 5, 6, 0⟩], [("A|B", ("A-B", [0]))],
        [("A|B", [("A-B", ([0], 5))])]⟩
      (by with_unfolding_all rfl) "A|B" "A-B" 5 (by decide) [0]
      (by with_unfolding_all rfl) [("A-B", ([0], 5))] (by with_unfolding_all rfl)).1⟩

/-- All route flows in the table are non-negative. -/
def tableNonneg (t : RouteTable) : Prop := ∀ p ∈ t, ∀ ent ∈ p.2, 0 ≤ ent.2.2

/-- All edge flows are non-negative. -/
def flowsNonneg (es : List Edge) : Prop := ∀ e ∈ es, 0 ≤ e.flow

/-- All edge auxiliary flows are non-negative. -/
def auxNonneg (es : List Edge) : Prop := ∀ e ∈ es, 0 ≤ e.aux_flow

theorem mem_dinsert {α : Type} (m : List (String × α)) (k : String) (v : α)
    (x : String × α) (hx : x ∈ dinsert m k v) : x = (k, v) ∨ x ∈ m := by
  induction m with
  | nil => simpa [dinsert] using hx
  | cons hd tl ih =>
    obtain ⟨a, b⟩ := hd
    by_cases h : a = k
    · subst h
      simp only [dinsert, beq_self_eq_true, if_true] at hx
      rcases List.mem_cons.1 hx with heq | hxm
      · exact Or.inl heq
      · exact Or.inr (List.mem_cons_of_mem _ hxm)
    · simp only [dinsert, show (a == k) = false from beq_eq_false_iff_ne.2 h,
        Bool.false_eq_true, if_false] at hx
      rcases List.mem_cons.1 hx with heq | hxm
      · exact Or.inr (heq ▸ List.mem_cons_self _ _)
      · rcases ih hxm with h1 | h2
        · exact Or.inl h1
        · exact Or.inr (List.mem_cons_of_mem _ h2)

theorem dlookup_mem {α : Type} (m : List (String × α)) (k : String) (v : α)
    (h : dlookup m k = some v) : ∃ k', (k', v) ∈ m := by
  unfold dlookup at h
  cases hf : m.find? (fun p => p.1 == k) with
  | none => rw [hf] at h; exact absurd h (by simp)
  | some p =>
    rw [hf] at h
    simp only [Option.map_some', Option.some.injEq] at h
    refine ⟨p.1, ?_⟩
    have hm := List.mem_of_find?_eq_some hf
    rw [show (p.1, v) = p from Prod.ext rfl h.symm]
    exact hm

theorem addRouteAux_auxNonneg (es : Route) (v : ℚ) (hv : 0 ≤ v) (eds : List Edge)
    (h : auxNonneg eds) : auxNonneg (addRouteAux es v eds) := by
  intro e he
  obtain ⟨n, hn⟩ := List.mem_iff_get?.1 he
  rw [addRouteAux_get? v es eds n] at hn
  cases hg : eds.get? n with
  | none => rw [hg] at hn; exact absurd hn (by simp)
  | some ed =>
    rw [hg] at hn
    simp only [Option.map_some', Option.some.injEq] at hn
    have hed : 0 ≤ ed.aux_flow := h ed (List.get?_mem hg)
    have hcv : (0:ℚ) ≤ (es.count n : ℚ) * v := mul_nonneg (by positivity) hv
    rw [← hn]
    show 0 ≤ ed.aux_flow + (es.count n : ℚ) * v
    linarith

theorem blend_fold_auxNonneg (phi q : ℚ) (best : String)
    (entries : List (String × (Route × ℚ))) (eds : List Edge)
    (acc : List (String × (Route × ℚ))) (h : auxNonneg eds) :
    auxNonneg (entries.foldl (blendEntry phi q best) (eds, acc)).1 := by
  induction entries generalizing eds acc with
  | nil => exact h
  | cons hd tl ih =>
    simp only [List.foldl_cons]
    exact ih _ _ (addRouteAux_auxNonneg _ _ (le_max_right _ 0) _ h)

theorem blendOd_nonneg (phi : ℚ) (mr : MinRoutes) (st : List Edge × RouteTable)
    (p : String × ℚ) (r : List Edge × RouteTable) (h : blendOd phi mr st p = some r)
    (ht : tableNonneg st.2) (ha : auxNonneg st.1) :
    tableNonneg r.2 ∧ auxNonneg r.1 := by
  obtain ⟨entries, best, broute, hent, hbest, hr1, hr2⟩ :=
    blendOd_characterize phi mr st p r h
  constructor
  · intro p' hp'
    rcases mem_dinsert _ _ _ _ (hr2 ▸ hp') with heq | hmem
    · subst heq
      intro ent hent2
      obtain ⟨e0, he0, heq2⟩ := List.mem_map.1 hent2
      rw [← heq2]
      exact le_max_right _ 0
    · exact ht p' hmem
  · rw [hr1]
    exact blend_fold_auxNonneg _ _ _ entries st.1 [] ha

theorem aonStep_tableNonneg (N : List Node) (a a' : AONState) (k : String)
    (h : aonStep N a k = some a') (ht : tableNonneg a.table) : tableNonneg a'.table := by
  obtain ⟨-, rs, es, odT, -, hodT, -, htab⟩ := aonStep_characterize N a k a' h
  intro p hp
  rcases mem_dinsert _ _ _ _ (htab ▸ hp) with heq | hmem
  · subst heq
    intro ent hent
    obtain ⟨k0, hk0⟩ := dlookup_mem _ _ _ hodT
    by_cases hc : (dlookup odT rs).isSome = true
    · rw [if_pos hc] at hent
      exact ht (k0, odT) hk0 ent hent
    · rw [if_neg hc] at hent
      rcases List.mem_append.1 hent with hold | hnew
      · exact ht (k0, odT) hk0 ent hold
      · rw [show ent = (rs, (es, 0)) from by simpa using hnew]
  · exact ht p hmem

theorem aonLoop_tableNonneg (N : List Node) (OD : ODMatrix) (a a' : AONState)
    (h : aonLoop N OD a = some a') (ht : tableNonneg a.table) : tableNonneg a'.table := by
  induction OD generalizing a with
  | nil =>
    unfold aonLoop at h
    simp only [List.foldlM_nil, Option.pure_def, Option.some.injEq] at h
    rw [← h]; exact ht
  | cons hd tl ih =>
    rw [aonLoop_cons] at h
    cases hs : aonStep N a hd.1 with
    | none => rw [hs] at h; exact absurd h (by simp)
    | some a1 =>
      rw [hs, Option.some_bind] at h
      exact ih a1 h (aonStep_tableNonneg N a a1 hd.1 hs ht)

theorem blendLoop_nonneg (phi : ℚ) (OD : ODMatrix) (mr : MinRoutes)
    (b b' : List Edge × RouteTable) (h : blendLoop phi OD mr b = some b')
    (ht : tableNonneg b.2) (ha : auxNonneg b.1) :
    tableNonneg b'.2 ∧ auxNonneg b'.1 := by
  induction OD generalizing b with
  | nil =>
    unfold blendLoop at h
    simp only [List.foldlM_nil, Option.pure_def, Option.some.injEq] at h
    rw [← h]; exact ⟨ht, ha⟩
  | cons hd tl ih =>
    rw [blendLoop_cons] at h
    cases hs : blendOd phi mr b hd with
    | none => rw [hs] at h; exact absurd h (by simp)
    | some b1 =>
      rw [hs, Option.some_bind] at h
      obtain ⟨ht1, ha1⟩ := blendOd_nonneg phi mr b hd b1 hs ht ha
      exact ih b1 h ht1 ha1

theorem msaIteration_nonneg (N : List Node) (OD : ODMatrix) (n : ℕ)
    (st st' : MSAState) (h : msaIteration N OD n st = some st')
    (ht : tableNonneg st.table) :
    tableNonneg st'.table ∧ flowsNonneg st'.edges := by
  obtain ⟨a, b, ha, hb, hst⟩ := msaIteration_decompose N OD n st st' h
  have hedges := aonLoop_edges N OD _ a ha
  have ha0 : auxNonneg a.edges := by
    rw [hedges]
    intro e he
    obtain ⟨e0, he0, heq⟩ := List.mem_map.1 he
    rw [← heq]
  have hta : tableNonneg a.table := aonLoop_tableNonneg N OD _ a ha ht
  obtain ⟨htb, hab⟩ := blendLoop_nonneg _ OD _ _ b hb hta ha0
  subst hst
  refine ⟨htb, ?_⟩
  intro e he
  obtain ⟨e0, he0, heq⟩ := List.mem_map.1 he
  rw [← heq]
  show (0:ℚ) ≤ e0.aux_flow
  exact hab e0 he0

/-- C4: with all OD demands non-negative and any non-negative starting edge
flows, after every prefix of the iteration loop (hence at every iteration
boundary of the run, for every iteration count) every route flow in the
route-flow table and every edge flow is `≥ 0`: the `max(..., 0)` blend keeps
route flows non-negative, and edge flows are sums of those blended flows. -/
theorem C4_flows_nonneg (N : List Node) (E : List Edge) (OD : ODMatrix)
    (hdem : ∀ p ∈ OD, 0 ≤ p.2) (hE : flowsNonneg E) (n k : ℕ) (st' : MSAState)
    (h : msaLoop N OD n k ⟨E, initTable OD⟩ = some st') :
    tableNonneg st'.table ∧ flowsNonneg st'.edges := by
  have hinit : tableNonneg (initTable OD) := by
    intro p hp ent hent
    obtain ⟨p0, hp0, heq⟩ := List.mem_map.1 hp
    rw [← heq] at hent
    exact absurd hent (by simp)
  clear hdem
  revert n h
  suffices hgen : ∀ (n : ℕ) (st : MSAState), tableNonneg st.table → flowsNonneg st.edges →
      msaLoop N OD n k st = some st' → tableNonneg st'.table ∧ flowsNonneg st'.edges by
    intro n h
    exact hgen n ⟨E, initTable OD⟩ hinit hE h
  clear hinit hE
  induction k with
  | zero =>
    intro n st ht he h
    unfold msaLoop at h
    simp only [Option.some.injEq] at h
    rw [← h]
    exact ⟨ht, he⟩
  | succ k ih =>
    intro n st ht he h
    unfold msaLoop at h
    cases hi : msaIteration N OD n st with
    | none => rw [hi] at h; exact absurd h (by simp)
    | some st1 =>
      rw [hi] at h
      obtain ⟨ht1, he1⟩ := msaIteration_nonneg N OD n st st1 hi ht
      exact ih (n+1) st1 ht1 he1 h

/-- Witness for C4 at a concrete input: two iterations on the two-node
network with demand 5. -/
theorem C4_flows_nonneg_witness :
    ((∀ p ∈ exOD, 0 ≤ p.2) ∧ flowsNonneg exE ∧
      msaLoop exN exOD 1 2 ⟨exE, initTable exOD⟩
        = some ⟨[⟨"A", "B", exf1, 5, 6, 5⟩], [("A|B", [("A-B", ([0], 5))])]⟩) ∧
    (tableNonneg ([("A|B", [("A-B", ([0], 5))])] : RouteTable) ∧
      flowsNonneg [⟨"A", "B", exf1, 5, 6, 5⟩]) :=
  ⟨⟨by with_unfolding_all decide, by unfold flowsNonneg; with_unfolding_all decide,
      by with_unfolding_all rfl⟩,
    C4_flows_nonneg exN exE exOD (by with_unfolding_all decide)
      (by unfold flowsNonneg; with_unfolding_all decide) 1 2
      ⟨[⟨"A", "B", exf1, 5, 6, 5⟩], [("A|B", [("A-B", ([0], 5))])]⟩
      (by with_unfolding_all rfl)⟩

/-- The unrounded cost of a route: the sum of its edges' current costs. -/
def routeCost (E : List Edge) (es : Route) : ℚ := (es.map (edgeCostD E)).sum

/-- The total demand of the OD matrix, `sum(OD_matrix.values())`. -/
def totalDemand (OD : ODMatrix) : ℚ := (OD.map Prod.snd).sum

/-- What `sum_tt` actually accumulates over the whole table:
`route_flow * (unrounded sum of the route's edge costs)`. -/
def tableSumTT (E : List Edge) (t : RouteTable) : ℚ :=
  (t.map (fun p => (p.2.map (fun ent => ent.2.2 * routeCost E ent.2.1)).sum)).sum

theorem routeScan_eq (E : List Edge) (fl : ℚ) (es : Route) (s : ℚ) :
    routeScan E fl es s = (routeCost E es, s + fl * routeCost E es) := by
  suffices hgen : ∀ (c0 s0 : ℚ),
      es.foldl (fun (acc : ℚ × ℚ) i => (acc.1 + edgeCostD E i, acc.2 + edgeCostD E i * fl))
          (c0, s0)
        = (c0 + routeCost E es, s0 + fl * routeCost E es) by
    unfold routeScan
    rw [hgen 0 s]
    rw [zero_add]
  intro c0 s0
  induction es generalizing c0 s0 with
  | nil => simp [routeCost]
  | cons j es ih =>
    simp only [List.foldl_cons]
    rw [ih]
    unfold routeCost
    simp only [List.map_cons, List.sum_cons, Prod.mk.injEq]
    constructor <;> ring

theorem odScanFold_eq (E : List Edge) (entries : List (String × (Route × ℚ)))
    (acc : OdScanAcc) :
    (entries.foldl (odScanStep E) acc).sum_tt
        = acc.sum_tt + (entries.map (fun ent => ent.2.2 * routeCost E ent.2.1)).sum
    ∧ (entries.foldl (odScanStep E) acc).aux
        = acc.aux ++ entries.map (fun ent => (ent.2.2, round2 (routeCost E ent.2.1))) := by
  induction entries generalizing acc with
  | nil => simp
  | cons hd tl ih =>
    simp only [List.foldl_cons, List.map_cons, List.sum_cons]
    obtain ⟨ih1, ih2⟩ := ih (odScanStep E acc hd)
    have hstep : odScanStep E acc hd
        = ⟨acc.sum_tt + hd.2.2 * routeCost E hd.2.1,
            (match acc.min_cost with
             | none => some (round2 (routeCost E hd.2.1))
             | some m => if round2 (routeCost E hd.2.1) < m
                 then some (round2 (routeCost E hd.2.1)) else some m),
            acc.aux ++ [(hd.2.2, round2 (routeCost E hd.2.1))]⟩ := by
      unfold odScanStep
      rw [routeScan_eq]
    constructor
    · rw [ih1, hstep]
      show acc.sum_tt + hd.2.2 * routeCost E hd.2.1 + _ = _
      ring
    · rw [ih2, hstep]
      show acc.aux ++ [(hd.2.2, round2 (routeCost E hd.2.1))] ++ _ = _
      rw [List.append_assoc]
      rfl

theorem evalFold_sum (OD : ODMatrix) (E : List Edge) (t : RouteTable) :
    ∀ (acc : ℚ × ℚ × ℚ × ℚ), (∀ p ∈ t, (dlookup OD p.1).isSome = true) →
      ∃ acc', t.foldlM (evalOdStep OD E) acc = some acc'
        ∧ acc'.1 = acc.1 + tableSumTT E t := by
  induction t with
  | nil =>
    intro acc _
    exact ⟨acc, rfl, by simp [tableSumTT]⟩
  | cons hd tl ih =>
    intro acc hdom
    rw [List.foldlM_cons]
    obtain ⟨q, hq⟩ := Option.isSome_iff_exists.1 (hdom hd (List.mem_cons_self hd tl))
    have hstep : ∃ rest : ℚ × ℚ × ℚ, evalOdStep OD E acc hd
        = some ((odScan E hd.2 acc.1).sum_tt, rest) := by
      unfold evalOdStep
      rw [hq]
      exact ⟨_, rfl⟩
    obtain ⟨rest, hstep⟩ := hstep
    rw [hstep]
    show ∃ acc', List.foldlM (evalOdStep OD E) ((odScan E hd.2 acc.1).sum_tt, rest) tl
        = some acc' ∧ acc'.1 = acc.1 + tableSumTT E (hd :: tl)
    obtain ⟨acc', hfold, hsum⟩ := ih _ (fun p hp => hdom p (List.mem_cons_of_mem hd hp))
    refine ⟨acc', hfold, ?_⟩
    rw [hsum]
    show _ = acc.1 + tableSumTT E (hd :: tl)
    have hsc : (odScan E hd.2 acc.1).sum_tt
        = acc.1 + (hd.2.map (fun ent => ent.2.2 * routeCost E ent.2.1)).sum :=
      (odScanFold_eq E hd.2 ⟨acc.1, none, []⟩).1
    unfold tableSumTT at *
    simp only [List.map_cons, List.sum_cons]
    rw [hsc]
    ring

/-- A one-edge network whose edge cost `1/3` does not round to itself. -/
def exEthird : List Edge :=
  [{ start := "A", «end» := "B", fn := fun _ => (1:ℚ)/3, flow := 1, cost := 1/3,
     aux_flow := 0 }]

/-- Counterexample to C6 as stated: with a single route of flow 1 over a
single edge of cost `1/3`, `evaluate_assignment` returns `sum_tt = 1/3` — the
flow times the *unrounded* edge-cost sum — while the claim's
`flow × (rounded route cost)` would be `round2(1/3) = 33/100 ≠ 1/3`:
`sum_tt` is accumulated per edge *before* the rounding of the route cost. -/
theorem C6_counterexample_sum_tt_unrounded :
    (evaluate_assignment [("A|B", 1)] [("A|B", [("A-B", ([0], 1))])] exEthird).map
        EvalResult.sum_tt = some (1/3)
    ∧ (1 : ℚ) * round2 ((1:ℚ)/3) ≠ (1:ℚ)/3 := by
  constructor
  · with_unfolding_all rfl
  · with_unfolding_all decide

/-- C6 as amended: whenever the total demand is non-zero and every table key
has a demand entry, the evaluation returns a result whose `sum_tt` is the sum
over all routes of all OD pairs of `route_flow × (unrounded sum of the
route's edge costs)`, and whose `UE` equals that `sum_tt` divided by the
total demand; the *rounded* route cost `round2(sum of edge costs)` is what
the per-pair scan records (paired with the route's flow) for the min-cost and
deviation comparisons. -/
theorem C6_amended_evaluation (OD : ODMatrix) (t : RouteTable) (E : List Edge)
    (htot : totalDemand OD ≠ 0)
    (hdom : ∀ p ∈ t, (dlookup OD p.1).isSome = true) :
    (∃ r, evaluate_assignment OD t E = some r ∧
      r.sum_tt = tableSumTT E t ∧
      r.UE = tableSumTT E t / totalDemand OD) ∧
    (∀ (entries : List (String × (Route × ℚ))) (s : ℚ),
      (odScan E entries s).aux
        = entries.map (fun ent => (ent.2.2, round2 (routeCost E ent.2.1)))) := by
  obtain ⟨acc', hfold, hsum⟩ := evalFold_sum OD E t ((0:ℚ), (0:ℚ), (0:ℚ), (0:ℚ)) hdom
  constructor
  · refine ⟨⟨acc'.1, acc'.2.1, acc'.2.2.1, acc'.2.2.2, acc'.1 / totalDemand OD⟩, ?_, ?_, ?_⟩
    · unfold evaluate_assignment
      rw [hfold]
      show (if totalDemand OD = 0 then (none : Option EvalResult)
          else some { sum_tt := acc'.1, sum_deviations := acc'.2.1, delta_top := acc'.2.2.1,
                      delta_bottom := acc'.2.2.2, UE := acc'.1 / totalDemand OD })
        = some { sum_tt := acc'.1, sum_deviations := acc'.2.1, delta_top := acc'.2.2.1,
                 delta_bottom := acc'.2.2.2, UE := acc'.1 / totalDemand OD }
      rw [if_neg htot]
    · show acc'.1 = _
      rw [hsum, zero_add]
    · show acc'.1 / totalDemand OD = _
      rw [hsum, zero_add]
  · intro entries s
    have := (odScanFold_eq E entries ⟨s, none, []⟩).2
    rw [show odScan E entries s = entries.foldl (odScanStep E) ⟨s, none, []⟩ from rfl, this]
    rfl

/-- Witness for C6 (amended) at a concrete input: the two-node network with
demand 5, one tracked route. -/
theorem C6_amended_evaluation_witness :
    (totalDemand exOD ≠ 0 ∧
      (∀ p ∈ ([("A|B", [("A-B", ([0], 1))])] : RouteTable),
        (dlookup exOD p.1).isSome = true)) ∧
    ((∃ r, evaluate_assignment exOD [("A|B", [("A-B", ([0], 1))])] exEthird = some r ∧
        r.sum_tt = tableSumTT exEthird [("A|B", [("A-B", ([0], 1))])] ∧
        r.UE = tableSumTT exEthird [("A|B", [("A-B", ([0], 1))])] / totalDemand exOD) ∧
      (∀ (entries : List (String × (Route × ℚ))) (s : ℚ),
        (odScan exEthird entries s).aux
          = entries.map (fun ent => (ent.2.2, round2 (routeCost exEthird ent.2.1))))) :=
  ⟨⟨by with_unfolding_all decide, by with_unfolding_all decide⟩,
    C6_amended_evaluation exOD [("A|B", [("A-B", ([0], 1))])] exEthird
      (by with_unfolding_all decide) (by with_unfolding_all decide)⟩

theorem dijkstra_two (o d : String) (hod : o ≠ d) (f : ℚ → ℚ) (fl c a : ℚ)
    (hc : c < 1000000) :
    dijkstra [mkNode o, mkNode d] [⟨o, d, f, fl, c, a⟩] o d [] = some [o, d] := by
  have hdo : (d == o) = false := beq_eq_false_iff_ne.2 (Ne.symm hod)
  have hodb : (o == d) = false := beq_eq_false_iff_ne.2 hod
  have hN1 : ((resetGraph [mkNode o, mkNode d]).map
      (fun nd => if nd.name == o then { nd with dist := 0 } else nd))
      = [⟨o, 0, none, false⟩, ⟨d, 1000000, none, false⟩] := by
    simp [resetGraph, mkNode, Ne.symm hod]
  have hdest : lastIdxOf [⟨o, 0, none, false⟩, ⟨d, 1000000, none, false⟩] d = some 1 := by
    simp [lastIdxOf, List.enum, List.enumFrom, Ne.symm hod, hod]
  have hpick1 : pickSmallestNode [⟨o, 0, none, false⟩, ⟨d, 1000000, none, false⟩]
      = some 0 := by
    simp [pickSmallestNode, List.findIdx?, List.enum, List.enumFrom]
    norm_num
  have hrelax : relaxAll [⟨o, 0, none, true⟩, ⟨d, 1000000, none, false⟩] 0
      [⟨o, d, f, fl, c, a⟩] []
      = some [⟨o, 0, none, true⟩, ⟨d, c, some o, false⟩] := by
    simp [relaxAll, pickEdgesList, relaxStep, List.findIdx?, Ne.symm hod, hod, hc]
  have hpick2 : pickSmallestNode [⟨o, 0, none, true⟩, ⟨d, c, some o, false⟩]
      = some 1 := by
    simp [pickSmallestNode, List.findIdx?, List.enum, List.enumFrom]
  have hloop : dijkstraLoop [⟨o, d, f, fl, c, a⟩] [] (some 1) 3
      [⟨o, 0, none, false⟩, ⟨d, 1000000, none, false⟩]
      = some [⟨o, 0, none, true⟩, ⟨d, c, some o, false⟩] := by
    rw [show (3 : ℕ) = 2 + 1 from rfl]
    unfold dijkstraLoop
    rw [hpick1]
    show (match relaxAll [⟨o, 0, none, true⟩, ⟨d, 1000000, none, false⟩] 0
        [⟨o, d, f, fl, c, a⟩] [] with
      | none => none
      | some N2 => if pickSmallestNode N2 = some 1 then some N2
          else dijkstraLoop [⟨o, d, f, fl, c, a⟩] [] (some 1) 2 N2) = _
    rw [hrelax]
    show (if pickSmallestNode [⟨o, 0, none, true⟩, ⟨d, c, some o, false⟩] = some 1
        then _ else _) = _
    rw [hpick2, if_pos rfl]
  have hwalk : walkPrev [⟨o, 0, none, true⟩, ⟨d, c, some o, false⟩] 3
      ⟨d, c, some o, false⟩ [] = some [o, d] := by
    simp [walkPrev, List.find?, beq_self_eq_true]
  show (match dijkstraLoop [⟨o, d, f, fl, c, a⟩] []
        (lastIdxOf ((resetGraph [mkNode o, mkNode d]).map
          (fun nd => if nd.name == o then { nd with dist := 0 } else nd)) d)
        (((resetGraph [mkNode o, mkNode d]).map
          (fun nd => if nd.name == o then { nd with dist := 0 } else nd)).length + 1)
        ((resetGraph [mkNode o, mkNode d]).map
          (fun nd => if nd.name == o then { nd with dist := 0 } else nd)) with
      | none => none
      | some Nf =>
        match lastIdxOf ((resetGraph [mkNode o, mkNode d]).map
            (fun nd => if nd.name == o then { nd with dist := 0 } else nd)) d with
        | none => none
        | some di =>
          match Nf.get? di with
          | none => none
          | some dn => walkPrev Nf (Nf.length + 1) dn []) = some [o, d]
  rw [hN1, hdest]
  rw [show ([⟨o, 0, none, false⟩, ⟨d, 1000000, none, false⟩] : List Node).length + 1 = 3
    from rfl]
  rw [hloop]
  exact hwalk

theorem computeMinRoute_two (o d key : String) (hod : o ≠ d)
    (hkey : splitOD key = some (o, d)) (f : ℚ → ℚ) (fl c a : ℚ) (hc : c < 1000000) :
    computeMinRoute [mkNode o, mkNode d] [⟨o, d, f, fl, c, a⟩] key
      = some (o ++ "-" ++ d, [0]) := by
  unfold computeMinRoute
  rw [hkey]
  show computeMinRouteSplit [mkNode o, mkNode d] [⟨o, d, f, fl, c, a⟩] o d = _
  unfold computeMinRouteSplit
  rw [dijkstra_two o d hod f fl c a hc]
  have hpath : getPathAsEdges [o, d] [⟨o, d, f, fl, c, a⟩] = some [0] := by
    simp [getPathAsEdges, List.findIdx?, beq_self_eq_true]
  show (match getPathAsEdges [o, d] [⟨o, d, f, fl, c, a⟩] with
    | none => none
    | some es =>
      match pathToStr es [⟨o, d, f, fl, c, a⟩] with
      | none => none
      | some rs => some (rs, es)) = _
  rw [hpath]
  have hstr : pathToStr [0] [⟨o, d, f, fl, c, a⟩] = some (o ++ "-" ++ d) := by
    simp [pathToStr, edgeNameD, Edge.name]
  show (match pathToStr [0] [⟨o, d, f, fl, c, a⟩] with
    | none => none
    | some rs => some (rs, [0])) = _
  rw [hstr]

theorem aonStep_two_new (o d key : String) (hod : o ≠ d)
    (hkey : splitOD key = some (o, d)) (f : ℚ → ℚ) (fl c a : ℚ) (hc : c < 1000000) :
    aonStep [mkNode o, mkNode d]
      ⟨[⟨o, d, f, fl, c, a⟩], [], [(key, [])]⟩ key
      = some ⟨[⟨o, d, f, fl, c, a⟩], [(key, (o ++ "-" ++ d, [0]))],
          [(key, [(o ++ "-" ++ d, ([0], 0))])]⟩ := by
  unfold aonStep
  rw [computeMinRoute_two o d key hod hkey f fl c a hc]
  show (match dlookup [(key, ([] : List (String × (Route × ℚ))))] key with
    | none => none
    | some odTable =>
      some (AONState.mk [⟨o, d, f, fl, c, a⟩]
        (dinsert [] key (o ++ "-" ++ d, [0]))
        (dinsert [(key, [])] key
          (if (dlookup odTable (o ++ "-" ++ d)).isSome then odTable
           else odTable ++ [(o ++ "-" ++ d, ([0], 0))])))) = _
  rw [show dlookup [(key, ([] : List (String × (Route × ℚ))))] key = some [] from by
    simp [dlookup, List.find?]]
  simp [dinsert, dlookup, List.find?]

theorem aonStep_two_old (o d key : String) (hod : o ≠ d)
    (hkey : splitOD key = some (o, d)) (f : ℚ → ℚ) (fl c a v : ℚ) (hc : c < 1000000) :
    aonStep [mkNode o, mkNode d]
      ⟨[⟨o, d, f, fl, c, a⟩], [], [(key, [(o ++ "-" ++ d, ([0], v))])]⟩ key
      = some ⟨[⟨o, d, f, fl, c, a⟩], [(key, (o ++ "-" ++ d, [0]))],
          [(key, [(o ++ "-" ++ d, ([0], v))])]⟩ := by
  unfold aonStep
  rw [computeMinRoute_two o d key hod hkey f fl c a hc]
  show (match dlookup [(key, [(o ++ "-" ++ d, (([0] : Route), v))])] key with
    | none => none
    | some odTable =>
      some (AONState.mk [⟨o, d, f, fl, c, a⟩]
        (dinsert [] key (o ++ "-" ++ d, [0]))
        (dinsert [(key, [(o ++ "-" ++ d, ([0], v))])] key
          (if (dlookup odTable (o ++ "-" ++ d)).isSome then odTable
           else odTable ++ [(o ++ "-" ++ d, ([0], 0))])))) = _
  rw [show dlookup [(key, [(o ++ "-" ++ d, (([0] : Route), v))])] key
      = some [(o ++ "-" ++ d, ([0], v))] from by simp [dlookup, List.find?]]
  simp [dinsert, dlookup, List.find?]

theorem blendOd_two (phi : ℚ) (o d key : String) (f : ℚ → ℚ) (fl c : ℚ) (w D : ℚ) :
    blendOd phi [(key, (o ++ "-" ++ d, [0]))]
      ([⟨o, d, f, fl, c, 0⟩], [(key, [(o ++ "-" ++ d, ([0], w))])]) (key, D)
      = some ([⟨o, d, f, fl, c, 0 + max ((1 - phi) * w + phi * D) 0⟩],
          [(key, [(o ++ "-" ++ d, ([0], max ((1 - phi) * w + phi * D) 0))])]) := by
  simp [blendOd, blendEntry, addRouteAux, dinsert, dlookup, List.find?]

theorem aonLoop_nil (N : List Node) (a : AONState) : aonLoop N [] a = some a := rfl

theorem blendLoop_nil (phi : ℚ) (mr : MinRoutes) (b : List Edge × RouteTable) :
    blendLoop phi [] mr b = some b := rfl

theorem msaIteration_two_first (o d key : String) (hod : o ≠ d)
    (hkey : splitOD key = some (o, d)) (f : ℚ → ℚ) (D : ℚ) (hD : 0 ≤ D)
    (hc : f 0 < 1000000) :
    msaIteration [mkNode o, mkNode d] [(key, D)] 1
        ⟨[mkEdge o d f], initTable [(key, D)]⟩
      = some ⟨[⟨o, d, f, D, f D, D⟩], [(key, [(o ++ "-" ++ d, ([0], D))])]⟩ := by
  have haon : aonLoop [mkNode o, mkNode d] [(key, D)]
      ⟨[⟨o, d, f, 0, f 0, 0⟩], [], [(key, [])]⟩
      = some ⟨[⟨o, d, f, 0, f 0, 0⟩], [(key, (o ++ "-" ++ d, [0]))],
          [(key, [(o ++ "-" ++ d, ([0], 0))])]⟩ := by
    rw [aonLoop_cons, aonStep_two_new o d key hod hkey f 0 (f 0) 0 hc]
    rw [Option.some_bind]
    exact aonLoop_nil _ _
  have hvna : max ((1 - 1 / ((1:ℕ) : ℚ)) * 0 + (1 / ((1:ℕ) : ℚ)) * D) 0 = D := by
    rw [max_eq_left]
    · norm_num
    · norm_num [hD]
  have hblend : blendLoop (1 / ((1:ℕ) : ℚ)) [(key, D)] [(key, (o ++ "-" ++ d, [0]))]
      ([⟨o, d, f, 0, f 0, 0⟩], [(key, [(o ++ "-" ++ d, ([0], 0))])])
      = some ([⟨o, d, f, 0, f 0, 0 + D⟩], [(key, [(o ++ "-" ++ d, ([0], D))])]) := by
    rw [blendLoop_cons, blendOd_two (1 / ((1:ℕ) : ℚ)) o d key f 0 (f 0) 0 D]
    rw [hvna, Option.some_bind]
    exact blendLoop_nil _ _ _
  simp only [msaIteration]
  show (match aonLoop [mkNode o, mkNode d] [(key, D)]
        (AONState.mk [⟨o, d, f, 0, f 0, 0⟩] [] [(key, [])]) with
    | none => none
    | some a =>
      match blendLoop (1 / ((1:ℕ) : ℚ)) [(key, D)] a.minRoutes (a.edges, a.table) with
      | none => none
      | some b =>
        some (MSAState.mk
          (b.1.map (fun (e : Edge) => Edge.update_cost { e with flow := e.aux_flow }))
          b.2)) = _
  rw [haon]
  show (match blendLoop (1 / ((1:ℕ) : ℚ)) [(key, D)] [(key, (o ++ "-" ++ d, [0]))]
        ([⟨o, d, f, 0, f 0, 0⟩], [(key, [(o ++ "-" ++ d, ([0], 0))])]) with
    | none => none
    | some b =>
      some (MSAState.mk
        (b.1.map (fun (e : Edge) => Edge.update_cost { e with flow := e.aux_flow }))
        b.2)) = _
  rw [hblend]
  show some (MSAState.mk
      (([⟨o, d, f, 0, f 0, 0 + D⟩] : List Edge).map
        (fun (e : Edge) => Edge.update_cost { e with flow := e.aux_flow }))
      [(key, [(o ++ "-" ++ d, ([0], D))])]) = _
  simp [Edge.update_cost]

theorem msaIteration_two_steady (o d key : String) (hod : o ≠ d)
    (hkey : splitOD key = some (o, d)) (f : ℚ → ℚ) (D : ℚ) (hD : 0 ≤ D)
    (hc : f D < 1000000) (n : ℕ) :
    msaIteration [mkNode o, mkNode d] [(key, D)] n
        ⟨[⟨o, d, f, D, f D, D⟩], [(key, [(o ++ "-" ++ d, ([0], D))])]⟩
      = some ⟨[⟨o, d, f, D, f D, D⟩], [(key, [(o ++ "-" ++ d, ([0], D))])]⟩ := by
  have haon : aonLoop [mkNode o, mkNode d] [(key, D)]
      ⟨[⟨o, d, f, D, f D, 0⟩], [], [(key, [(o ++ "-" ++ d, ([0], D))])]⟩
      = some ⟨[⟨o, d, f, D, f D, 0⟩], [(key, (o ++ "-" ++ d, [0]))],
          [(key, [(o ++ "-" ++ d, ([0], D))])]⟩ := by
    rw [aonLoop_cons, aonStep_two_old o d key hod hkey f D (f D) 0 D hc]
    rw [Option.some_bind]
    exact aonLoop_nil _ _
  have hvna : max ((1 - 1 / ((n:ℕ) : ℚ)) * D + (1 / ((n:ℕ) : ℚ)) * D) 0 = D := by
    rw [show (1 - 1 / ((n:ℕ) : ℚ)) * D + (1 / ((n:ℕ) : ℚ)) * D = D from by ring]
    exact max_eq_left hD
  have hblend : blendLoop (1 / ((n:ℕ) : ℚ)) [(key, D)] [(key, (o ++ "-" ++ d, [0]))]
      ([⟨o, d, f, D, f D, 0⟩], [(key, [(o ++ "-" ++ d, ([0], D))])])
      = some ([⟨o, d, f, D, f D, 0 + D⟩], [(key, [(o ++ "-" ++ d, ([0], D))])]) := by
    rw [blendLoop_cons, blendOd_two (1 / ((n:ℕ) : ℚ)) o d key f D (f D) D D]
    rw [hvna, Option.some_bind]
    exact blendLoop_nil _ _ _
  simp only [msaIteration]
  show (match aonLoop [mkNode o, mkNode d] [(key, D)]
        (AONState.mk [⟨o, d, f, D, f D, 0⟩] []
          [(key, [(o ++ "-" ++ d, ([0], D))])]) with
    | none => none
    | some a =>
      match blendLoop (1 / ((n:ℕ) : ℚ)) [(key, D)] a.minRoutes (a.edges, a.table) with
      | none => none
      | some b =>
        some (MSAState.mk
          (b.1.map (fun (e : Edge) => Edge.update_cost { e with flow := e.aux_flow }))
          b.2)) = _
  rw [haon]
  show (match blendLoop (1 / ((n:ℕ) : ℚ)) [(key, D)] [(key, (o ++ "-" ++ d, [0]))]
        ([⟨o, d, f, D, f D, 0⟩], [(key, [(o ++ "-" ++ d, ([0], D))])]) with
    | none => none
    | some b =>
      some (MSAState.mk
        (b.1.map (fun (e : Edge) => Edge.update_cost { e with flow := e.aux_flow }))
        b.2)) = _
  rw [hblend]
  show some (MSAState.mk
      (([⟨o, d, f, D, f D, 0 + D⟩] : List Edge).map
        (fun (e : Edge) => Edge.update_cost { e with flow := e.aux_flow }))
      [(key, [(o ++ "-" ++ d, ([0], D))])]) = _
  simp [Edge.update_cost]

theorem msaLoop_two_steady (o d key : String) (hod : o ≠ d)
    (hkey : splitOD key = some (o, d)) (f : ℚ → ℚ) (D : ℚ) (hD : 0 ≤ D)
    (hc : f D < 1000000) :
    ∀ (k n : ℕ), msaLoop [mkNode o, mkNode d] [(key, D)] n k
        ⟨[⟨o, d, f, D, f D, D⟩], [(key, [(o ++ "-" ++ d, ([0], D))])]⟩
      = some ⟨[⟨o, d, f, D, f D, D⟩], [(key, [(o ++ "-" ++ d, ([0], D))])]⟩ := by
  intro k
  induction k with
  | zero => intro n; rfl
  | succ k ih =>
    intro n
    unfold msaLoop
    rw [msaIteration_two_steady o d key hod hkey f D hD hc n]
    exact ih (n+1)

/-- C8 as amended: for every two-node one-edge network (origin `o`,
destination `d`, OD key splitting into `(o, d)`, demand `D ≥ 0`) whose edge
cost stays below the 1000000 distance sentinel at flow 0 and at flow `D`,
after any number `k ≥ 1` of MSA iterations the loop state has exactly one
tracked route (the edge itself) with flow exactly `D`, and the edge's flow is
exactly `D` (its cost being the cost function at `D`). -/
theorem C8_amended_two_node (o d key : String) (hod : o ≠ d)
    (hkey : splitOD key = some (o, d)) (f : ℚ → ℚ) (D : ℚ) (hD : 0 ≤ D)
    (hc0 : f 0 < 1000000) (hcD : f D < 1000000) (k : ℕ) (hk : 1 ≤ k) :
    msaLoop [mkNode o, mkNode d] [(key, D)] 1 k ⟨[mkEdge o d f], initTable [(key, D)]⟩
      = some ⟨[⟨o, d, f, D, f D, D⟩], [(key, [(o ++ "-" ++ d, ([0], D))])]⟩ := by
  obtain ⟨k', rfl⟩ : ∃ k', k = k' + 1 := ⟨k - 1, (Nat.succ_pred_eq_of_pos hk).symm⟩
  unfold msaLoop
  rw [msaIteration_two_first o d key hod hkey f D hD hc0]
  exact msaLoop_two_steady o d key hod hkey f D hD hcD k' 2

/-- Witness for C8 (amended) at a concrete input: nodes `A`, `B`, cost
`flow + 1`, demand 5, three iterations. -/
theorem C8_amended_two_node_witness :
    (("A" : String) ≠ "B" ∧ splitOD "A|B" = some ("A", "B") ∧ (0:ℚ) ≤ 5 ∧
      exf1 0 < 1000000 ∧ exf1 5 < 1000000 ∧ (1:ℕ) ≤ 3) ∧
    msaLoop [mkNode "A", mkNode "B"] [("A|B", 5)] 1 3
        ⟨[mkEdge "A" "B" exf1], initTable [("A|B", 5)]⟩
      = some ⟨[⟨"A", "B", exf1, 5, exf1 5, 5⟩],
          [("A|B", [("A" ++ "-" ++ "B", ([0], 5))])]⟩ :=
  ⟨⟨by decide, by with_unfolding_all decide, by with_unfolding_all decide,
     by with_unfolding_all decide, by with_unfolding_all decide, by decide⟩,
    C8_amended_two_node "A" "B" "A|B" (by decide) (by with_unfolding_all decide) exf1 5
      (by with_unfolding_all decide) (by with_unfolding_all decide)
      (by with_unfolding_all decide) 3 (by decide)⟩

end MSA
